import Mathlib

/-!
# Verification of the tview frame diffing and rendering pipeline

This file gives a shallow embedding of the frame / diff core of the tview
repository (the generation-tagged `frame` store with dirty-span tracking and
wide-grapheme continuation cells, and the `blitDiff` incremental blitter from
`application.go`) and proves the specification claims about it.

Representation choices of the embedding:

* Go machine integers become `Nat` / `Int` with explicit reductions:
  `uint64` arithmetic is performed modulo `U64 = 2^64`, the `uint32`
  generation counter modulo `U32 = 2^32`, `uint8` display widths are `Nat`
  clamped by `widthToCellDW`, and Go `int` is `Int`.
* Go slices backing a frame (`cells`, `rowGen`, `rowStart`, `rowEnd`) become
  total functions from `Int` indices.  All code paths of the source index
  these slices only after an explicit bounds check (or from clamped
  dirty-span data), so on every index the source can actually touch, the
  function representation and the slice agree; loops over index ranges
  become range conditionals or fuelled recursion.
* Loops whose bound is a difference of positions are given explicit fuel
  equal to the number of remaining columns, which is exactly the number of
  iterations the Go loop performs (each iteration advances the position by
  at least one column within the same bound).
* The external text-measurement service (`uniseg.StringWidth`,
  `uniseg.FirstGraphemeClusterInString`, `utf8.DecodeRuneInString`) is a
  parameter of the operations that call it, since it is an external
  collaborator of this core.
* `tcell.Style` is opaque to this core beyond hashing and equality; it is
  modelled as a record of the numeric fields and URL strings the hash
  consumes.  `StyleDefault` models the distinguished `tcell.StyleDefault`.
-/

set_option maxHeartbeats 1000000

namespace Tview

/-- `2^64`, the modulus of Go `uint64` arithmetic. -/
def U64 : Nat := 18446744073709551616

/-- `2^32`, the modulus of Go `uint32` arithmetic. -/
def U32 : Nat := 4294967296

/-- Model of `tcell.Style`: the numeric components and URL strings that
`styleSignature` hashes.  Equality of two model styles corresponds to
equality of the underlying `tcell.Style` values. -/
structure Style where
  fg : Nat
  bg : Nat
  attrs : Nat
  ustyle : Nat
  ucolor : Nat
  urlId : String
  url : String
deriving DecidableEq

/-- Model of `tcell.StyleDefault`. -/
def StyleDefault : Style := ⟨0, 0, 0, 0, 0, "", ""⟩

/-- One character cell of a frame (struct `cell` in the source). -/
structure cell where
  text : String
  style : Style
  dw : Nat
  cont : Bool
  leadX : Int
  sig : Nat
  gen : Nat
deriving DecidableEq

/-- The Go zero value of `cell`, as produced by `make([]cell, n)` and by
`cell{}` literals. -/
def zeroCell : cell := ⟨"", StyleDefault, 0, false, 0, 0, 0⟩

instance : Inhabited cell := ⟨zeroCell⟩

/-- `frame` stores one logical render frame (struct `frame` in the source).
The backing slices are modelled as total functions from `Int`; see the
header comment. -/
structure frame where
  width : Int
  height : Int
  gen : Nat
  cells : Int → cell
  rowGen : Int → Nat
  rowStart : Int → Int
  rowEnd : Int → Int
  clearAll : Bool

/-- `normalizeFrameSize` from the source: clamps dimensions to `≥ 0`. -/
def normalizeFrameSize (width height : Int) : Int × Int :=
  (if width < 0 then 0 else width, if height < 0 then 0 else height)

/-- `newFrame` from the source: a zeroed grid with generation 0. -/
def newFrame (width height : Int) : frame :=
  let wh := normalizeFrameSize width height
  { width := wh.1
    height := wh.2
    gen := 0
    cells := fun _ => zeroCell
    rowGen := fun _ => 0
    rowStart := fun _ => 0
    rowEnd := fun _ => 0
    clearAll := false }

/-- `frame.resize` from the source: reallocates storage when dimensions
change, resetting the generation; a no-op when they are unchanged. -/
def frame.resize (f : frame) (width height : Int) : frame :=
  let wh := normalizeFrameSize width height
  if f.width = wh.1 ∧ f.height = wh.2 then f
  else
    { width := wh.1
      height := wh.2
      gen := 0
      cells := fun _ => zeroCell
      rowGen := fun _ => 0
      rowStart := fun _ => 0
      rowEnd := fun _ => 0
      clearAll := false }

/-- `frame.beginFrame` from the source: increments the `uint32` generation;
on wraparound to 0 it resets every cell and row generation to 0 and restarts
at generation 1. -/
def frame.beginFrame (f : frame) : frame :=
  let g := (f.gen + 1) % U32
  if g ≠ 0 then { f with gen := g, clearAll := false }
  else
    { f with
      gen := 1
      clearAll := false
      cells := fun i => { f.cells i with gen := 0 }
      rowGen := fun _ => 0 }

/-- `frame.Clear` from the source: begins a new frame and marks it as a
full repaint pass. -/
def frame.Clear (f : frame) : frame :=
  { f.beginFrame with clearAll := true }

/-- `frame.markSpan` from the source: extends row `y`'s dirty span by
`[start, e)`, clamped to the frame width. -/
def frame.markSpan (f : frame) (y start e : Int) : frame :=
  if y < 0 ∨ f.height ≤ y ∨ e ≤ start then f
  else
    let start := if start < 0 then 0 else start
    let e := if f.width < e then f.width else e
    if e ≤ start then f
    else
      if f.rowGen y ≠ f.gen then
        { f with
          rowGen := fun r => if r = y then f.gen else f.rowGen r
          rowStart := fun r => if r = y then start else f.rowStart r
          rowEnd := fun r => if r = y then e else f.rowEnd r }
      else
        { f with
          rowStart := fun r =>
            if r = y then (if start < f.rowStart y then start else f.rowStart y)
            else f.rowStart r
          rowEnd := fun r =>
            if r = y then (if f.rowEnd y < e then e else f.rowEnd y)
            else f.rowEnd r }

/-- `widthToCellDW` from the source: clamps a display width into `uint8`. -/
def widthToCellDW (width : Int) : Nat :=
  if width ≤ 0 then 1
  else if 255 < width then 255
  else width.toNat

/-- FNV-1a 64-bit offset basis (`fnv64Offset` in the source). -/
def fnv64Offset : Nat := 1469598103934665603

/-- FNV-1a 64-bit prime (`fnv64Prime` in the source). -/
def fnv64Prime : Nat := 1099511628211

/-- `hashMixUint64` from the source: `h ^= v; h *= fnv64Prime` in `uint64`
arithmetic. -/
def hashMixUint64 (h v : Nat) : Nat :=
  Nat.xor (h % U64) (v % U64) * fnv64Prime % U64

/-- The UTF-8 bytes of a character, as Go string indexing would see them. -/
def utf8Bytes (c : Char) : List Nat :=
  let n := c.toNat
  if n < 128 then [n]
  else if n < 2048 then [192 + n / 64, 128 + n % 64]
  else if n < 65536 then [224 + n / 4096, 128 + n / 64 % 64, 128 + n % 64]
  else [240 + n / 262144, 128 + n / 4096 % 64, 128 + n / 64 % 64, 128 + n % 64]

/-- The UTF-8 byte sequence of a string (Go `s[i]` iteration order). -/
def strBytes (s : String) : List Nat :=
  s.data.foldr (fun c acc => utf8Bytes c ++ acc) []

/-- `hashMixString` from the source: folds every byte of `s` into `h`. -/
def hashMixString (h : Nat) (s : String) : Nat :=
  (strBytes s).foldl (fun a b => Nat.xor (a % U64) b * fnv64Prime % U64) h

/-- `styleSignature` from the source. -/
def styleSignature (st : Style) : Nat :=
  let h := fnv64Offset
  let h := hashMixUint64 h st.fg
  let h := hashMixUint64 h st.bg
  let h := hashMixUint64 h st.attrs
  let h := hashMixUint64 h st.ustyle
  let h := hashMixUint64 h st.ucolor
  let h := hashMixString h st.urlId
  hashMixString h st.url

/-- The `uint64` image of a Go `int` (two's-complement wrap into 64 bits). -/
def u64OfInt (v : Int) : Nat := (v % (U64 : Int)).toNat

/-- `cellSignature` from the source. -/
def cellSignature (text : String) (style : Style) (dw : Nat) (cont : Bool)
    (leadX : Int) : Nat :=
  let h := fnv64Offset
  let h := hashMixString h text
  let h := hashMixUint64 h (styleSignature style)
  let h := hashMixUint64 h dw
  let h := if cont then hashMixUint64 h 1 else hashMixUint64 h 0
  hashMixUint64 h (u64OfInt (leadX + 1))

/-- `frame.putCellText` from the source: bounds-checked single-cell write.
If the target currently holds a live wide lead from this generation, its
trailing continuation columns are cleared (and marked dirty) first. -/
def frame.putCellText (f : frame) (x y : Int) (text : String) (style : Style)
    (dw : Nat) (cont : Bool) (leadX : Int) : frame :=
  if x < 0 ∨ y < 0 ∨ f.width ≤ x ∨ f.height ≤ y then f
  else
    let index := y * f.width + x
    let prev := f.cells index
    let f1 :=
      if prev.gen = f.gen ∧ prev.cont = false ∧ 1 < prev.dw then
        let oldEnd := min (x + (prev.dw : Int)) f.width
        if x + 1 < oldEnd then
          let fm := f.markSpan y (x + 1) oldEnd
          { fm with
            cells := fun i =>
              if y * f.width + (x + 1) ≤ i ∧ i < y * f.width + oldEnd then zeroCell
              else fm.cells i }
        else f
      else f
    let f2 := f1.markSpan y x (x + 1)
    { f2 with
      cells := fun i =>
        if i = index then
          { text := text, style := style, dw := dw, cont := cont, leadX := leadX
            sig := cellSignature text style dw cont leadX, gen := f2.gen }
        else f2.cells i }

/-- The trailing-continuation loop shared by `frame.SetContent` and
`captureScreen.Put` in the source (`for i := 1; i < width; i++`): writes
continuation cells at columns `x + i, …` referencing lead column `leadX`.
`n` is the remaining iteration count. -/
def frame.putContinuations (f : frame) (x y : Int) (style : Style)
    (leadX : Int) (i : Int) : Nat → frame
  | 0 => f
  | n + 1 =>
    (f.putCellText (x + i) y "" style 0 true leadX).putContinuations
      x y style leadX (i + 1) n

/-- `frame.SetContent` from the source, parameterised by the external
text-measurement service `stringWidth` (`uniseg.StringWidth`). -/
def frame.SetContent (stringWidth : String → Int) (f : frame) (x y : Int)
    (primary : Char) (combining : List Char) (style : Style) : frame :=
  let text := String.mk (primary :: combining)
  let width := stringWidth text
  let width := if width ≤ 0 then 1 else width
  let tw := if 1 < width ∧ x = f.width - 1 then ((" " : String), (1 : Int))
            else (text, width)
  let text := tw.1
  let width := tw.2
  let f := f.putCellText x y text style (widthToCellDW width) false (-1)
  f.putContinuations x y style x 1 (width - 1).toNat

/-- `frame.rowSpan` from the source: the row's current-generation dirty
span, if any. -/
def frame.rowSpan (f : frame) (y : Int) : Option (Int × Int) :=
  if y < 0 ∨ f.height ≤ y then none
  else if f.rowGen y ≠ f.gen then none
  else some (f.rowStart y, f.rowEnd y)

/-- `frame.cellAt` from the source: `none` when out of bounds or when the
cell's generation does not match the frame's. -/
def frame.cellAt (f : frame) (x y : Int) : Option cell :=
  if x < 0 ∨ y < 0 ∨ f.width ≤ x ∨ f.height ≤ y then none
  else
    let c := f.cells (y * f.width + x)
    if c.gen ≠ f.gen then none else some c

/-- `cellsEqual` from the source. -/
def cellsEqual (a : cell) (aOK : Bool) (b : cell) (bOK : Bool) : Bool :=
  if aOK ≠ bOK then false
  else if ¬aOK then true
  else if a.text ≠ b.text ∨ a.style ≠ b.style ∨ a.dw ≠ b.dw ∨ a.cont ≠ b.cont
      ∨ a.leadX ≠ b.leadX then false
  else true

end Tview

namespace Tview

/-- `captureScreen.Put` from the source, parameterised by the external
segmentation service: `seg` models `uniseg.FirstGraphemeClusterInString`
(returning the first cluster, the remainder, and the cluster's width) and
`decode` models the `utf8.DecodeRuneInString` fallback (returning the first
rune as a string and the remainder, or `none` when the size is 0).  Returns
the updated frame, the remainder, and the consumed width. -/
def capPut (seg : String → String × String × Int)
    (decode : String → Option (String × String))
    (f : frame) (x y : Int) (str : String) (style : Style) :
    frame × String × Int :=
  if str = "" then (f, "", 0)
  else
    let c0 := seg str
    match (if c0.1 = "" then
            (match decode str with
             | none => none
             | some (r, rest) => some (r, rest, (1 : Int)))
           else some c0) with
    | none => (f, "", 0)
    | some (cluster, remain, width) =>
      if width ≤ 0 then (f, remain, 0)
      else
        let cw := if 1 < width ∧ x = f.width - 1 then ((" " : String), (1 : Int))
                  else (cluster, width)
        let f := f.putCellText x y cw.1 style (widthToCellDW cw.2) false (-1)
        let f := f.putContinuations x y style x 1 (cw.2 - 1).toNat
        (f, remain, cw.2)

/-- Go `spaces[:k]`: the first `k` bytes of the all-spaces scratch string
(`ensureSpaces` only ever produces ASCII spaces, so bytes and characters
coincide). -/
def spacesTake (spaces : String) (k : Nat) : String :=
  String.mk (spaces.data.take k)

/-- One call of `blitDiff` / `paintBackRowRangeNoCompare` against the
terminal driver (`tcell.Screen`): a physical clear, a styled string write,
or a single-cluster put. -/
inductive ScreenOp where
  | clear : ScreenOp
  | putStrStyled (x y : Int) (s : String) (style : Style) : ScreenOp
  | put (x y : Int) (text : String) (style : Style) : ScreenOp
deriving DecidableEq

/-- The target coordinates a screen write is addressed at (`clear` has no
target). -/
def opTarget : ScreenOp → Option (Int × Int)
  | .clear => none
  | .putStrStyled x y _ _ => some (x, y)
  | .put x y _ _ => some (x, y)

/-- `isContinuationCoveredByLead` from the source, over a row slice given as
an offset function together with its length `width`. -/
def isContinuationCoveredByLead (row : Int → cell) (width : Int) (gen : Nat)
    (x : Int) : Bool :=
  if x < 0 ∨ width ≤ x then false
  else
    let c := row x
    if c.gen ≠ gen ∨ c.cont = false then false
    else
      let leadX := c.leadX
      if leadX < 0 ∨ x ≤ leadX ∨ width ≤ leadX then false
      else
        let lead := row leadX
        if lead.gen ≠ gen ∨ lead.cont = true ∨ lead.dw ≤ 1 then false
        else decide (x < leadX + (lead.dw : Int))

/-- The loop body of `rowRangeSignature`: folds the stored cell signatures
(or the absent-cell sentinel 0) over columns `x, x+1, …` for `n` steps. -/
def rowRangeSigAux (row : Int → cell) (gen : Nat) : Nat → Int → Nat → Nat
  | 0, _, h => h
  | n + 1, x, h =>
    let c := row x
    rowRangeSigAux row gen n (x + 1)
      (if c.gen ≠ gen then hashMixUint64 h 0 else hashMixUint64 h c.sig)

/-- `rowRangeSignature` from the source. -/
def rowRangeSignature (row : Int → cell) (gen : Nat) (start e : Int) : Nat :=
  hashMixUint64 (rowRangeSigAux row gen (e - start).toNat start fnv64Offset)
    (u64OfInt (e - start))

/-- The clear-run extension loop inside `blitDiff` (the inner `for` in the
`cell.gen != back.gen` branch): returns the column where the run stops. -/
def clearRunEnd (fRow bRow : Int → cell) (fGen bGen : Nat) (e : Int) :
    Nat → Int → Int
  | 0, x => x
  | n + 1, x =>
    if e ≤ x then x
    else
      let fc := fRow x
      let fok : Bool := decide (fc.gen = fGen)
      let bc := bRow x
      let bok : Bool := decide (bc.gen = bGen)
      if bok then x
      else if fok = false then clearRunEnd fRow bRow fGen bGen e n (x + 1)
      else if cellsEqual fc fok bc bok then x
      else clearRunEnd fRow bRow fGen bGen e n (x + 1)

/-- The width-1 batching loop inside `blitDiff` (the inner `for` in the
`cell.dw == 1` branch): returns the stop column and the accumulated text. -/
def textRun (fRow bRow : Int → cell) (fGen bGen : Nat) (style : Style)
    (e : Int) : Nat → Int → String → Int × String
  | 0, x, acc => (x, acc)
  | n + 1, x, acc =>
    if e ≤ x then (x, acc)
    else
      let next := bRow x
      let fc := fRow x
      let fok : Bool := decide (fc.gen = fGen)
      let bc := bRow x
      let bok : Bool := decide (bc.gen = bGen)
      if bok = false ∨ next.style ≠ style ∨ next.dw ≠ 1 then (x, acc)
      else if fok = true ∧ fc.style = bc.style ∧ fc.dw = bc.dw ∧ fc.text = bc.text
        then (x, acc)
      else textRun fRow bRow fGen bGen style e n (x + 1) (acc ++ next.text)

/-- The per-row walk of `blitDiff`'s incremental mode (the `for x := start;
x < end;` loop), emitting the screen writes and the changed flag for one
row.  The fuel is the remaining column count. -/
def diffWalk (fRow bRow : Int → cell) (fGen bGen : Nat) (width y e : Int)
    (spaces : String) : Nat → Int → List ScreenOp × Bool
  | 0, _ => ([], false)
  | n + 1, x =>
    if e ≤ x then ([], false)
    else
      let fc := fRow x
      let fok : Bool := decide (fc.gen = fGen)
      let bc := bRow x
      let bok : Bool := decide (bc.gen = bGen)
      if fok = false ∧ bok = false then
        diffWalk fRow bRow fGen bGen width y e spaces n (x + 1)
      else if bok = true ∧ bc.cont = true then
        let rest := diffWalk fRow bRow fGen bGen width y e spaces n (x + 1)
        if isContinuationCoveredByLead bRow width bGen x then rest
        else (.putStrStyled x y (spacesTake spaces 1) StyleDefault :: rest.1, true)
      else if cellsEqual fc fok bc bok then
        diffWalk fRow bRow fGen bGen width y e spaces n (x + 1)
      else if bc.gen ≠ bGen then
        let x2 := clearRunEnd fRow bRow fGen bGen e (e - x).toNat x
        let rest := diffWalk fRow bRow fGen bGen width y e spaces n x2
        (.putStrStyled x y (spacesTake spaces (x2 - x).toNat) StyleDefault ::
          rest.1, true)
      else if bc.dw = 1 then
        let r := textRun fRow bRow fGen bGen bc.style e (e - x).toNat x ""
        let rest := diffWalk fRow bRow fGen bGen width y e spaces n r.1
        (.putStrStyled x y r.2 bc.style :: rest.1, true)
      else
        let rest := diffWalk fRow bRow fGen bGen width y e spaces n (x + 1)
        (.put x y bc.text bc.style :: rest.1, true)

/-- The candidate dirty range of a row in incremental mode: the union of the
two frames' dirty spans (the `switch` at the top of `blitDiff`'s row loop). -/
def unionSpan (front back : frame) (y : Int) : Option (Int × Int) :=
  match back.rowSpan y, front.rowSpan y with
  | some (bs, be), some (fs, fe) => some (min bs fs, max be fe)
  | some (bs, be), none => some (bs, be)
  | none, some (fs, fe) => some (fs, fe)
  | none, none => none

/-- One row of `blitDiff`'s incremental mode: span selection, the row
signature short-circuit, then the walk. -/
def diffRow (front back : frame) (spaces : String) (y : Int) :
    List ScreenOp × Bool :=
  match unionSpan front back y with
  | none => ([], false)
  | some (s, e) =>
    if e ≤ s then ([], false)
    else
      let width := back.width
      let fRow := fun i => front.cells (y * width + i)
      let bRow := fun i => back.cells (y * width + i)
      if rowRangeSignature fRow front.gen s e
          = rowRangeSignature bRow back.gen s e then ([], false)
      else diffWalk fRow bRow front.gen back.gen width y e spaces (e - s).toNat s

/-- The blank-run extension loop inside `paintBackRowRangeNoCompare`. -/
def blankRunEnd (row : Int → cell) (gen : Nat) (e : Int) : Nat → Int → Int
  | 0, x => x
  | n + 1, x =>
    if e ≤ x then x
    else if (row x).gen ≠ gen then blankRunEnd row gen e n (x + 1)
    else x

/-- The width-1 batching loop inside `paintBackRowRangeNoCompare`. -/
def styleRun (row : Int → cell) (gen : Nat) (style : Style) (e : Int) :
    Nat → Int → String → Int × String
  | 0, x, acc => (x, acc)
  | n + 1, x, acc =>
    if e ≤ x then (x, acc)
    else
      let next := row x
      if next.gen ≠ gen ∨ next.style ≠ style ∨ next.dw ≠ 1 then (x, acc)
      else styleRun row gen style e n (x + 1) (acc ++ next.text)

/-- `paintBackRowRangeNoCompare` from the source: paints `[x, e)` of one
back row without consulting the front frame. -/
def paintRowAux (row : Int → cell) (width : Int) (gen : Nat) (y e : Int)
    (spaces : String) : Nat → Int → List ScreenOp
  | 0, _ => []
  | n + 1, x =>
    if e ≤ x then []
    else
      let c := row x
      if c.gen ≠ gen then
        let x2 := blankRunEnd row gen e (e - x).toNat x
        .putStrStyled x y (spacesTake spaces (x2 - x).toNat) StyleDefault ::
          paintRowAux row width gen y e spaces n x2
      else if c.cont then
        (if isContinuationCoveredByLead row width gen x then ([] : List ScreenOp)
         else [.putStrStyled x y (spacesTake spaces 1) StyleDefault]) ++
          paintRowAux row width gen y e spaces n (x + 1)
      else if c.dw = 1 then
        let r := styleRun row gen c.style e (e - x).toNat x ""
        .putStrStyled x y r.2 c.style :: paintRowAux row width gen y e spaces n r.1
      else
        .put x y c.text c.style :: paintRowAux row width gen y e spaces n (x + 1)

/-- The result of a blit: whether anything changed, and the emitted screen
writes in order. -/
structure BlitResult where
  changed : Bool
  ops : List ScreenOp
deriving DecidableEq

/-- The rows `0, …, height-1` visited by `for y := range height`. -/
def rowsOf (height : Int) : List Int := (List.range height.toNat).map Int.ofNat

/-- `Application.blitDiff` from the source: full-clear mode, forced-redraw
mode, or the incremental per-row diff.  Instead of mutating a screen it
returns the ordered list of emitted screen calls together with the changed
flag. -/
def blitDiff (front back : frame) (forceRedraw : Bool) (spaces : String) :
    BlitResult :=
  let width := back.width
  let height := back.height
  if back.clearAll then
    { changed := true
      ops := .clear :: (rowsOf height).foldr (fun y acc =>
        (match back.rowSpan y with
         | none => []
         | some (s, e) =>
           if e ≤ s then []
           else paintRowAux (fun i => back.cells (y * width + i)) width back.gen
             y e spaces (e - s).toNat s) ++ acc) [] }
  else if forceRedraw then
    { changed := true
      ops := .clear :: (rowsOf height).foldr (fun y acc =>
        paintRowAux (fun i => back.cells (y * width + i)) width back.gen
          y width spaces width.toNat 0 ++ acc) [] }
  else
    (rowsOf height).foldr (fun y acc =>
      let r := diffRow front back spaces y
      { changed := r.2 || acc.changed, ops := r.1 ++ acc.ops })
      { changed := false, ops := [] }

end Tview

namespace Tview

/-- A concrete one-cell frame at generation 1 holding a current-generation
cell, used to witness the generation-isolation theorem. -/
def fC3 : frame :=
  { width := 1, height := 1, gen := 1
    cells := fun _ => { zeroCell with gen := 1 }
    rowGen := fun _ => 1
    rowStart := fun _ => 0
    rowEnd := fun _ => 1
    clearAll := false }

/-- A 3-column frame at generation 1, used to witness the wide-glyph
continuation theorem. -/
def fC4w : frame := (newFrame 3 1).beginFrame

/-- A 256-column frame at generation 1, input of the C4 counterexample. -/
def fC4x : frame := (newFrame 256 1).beginFrame

/-- `fC4x` after writing a glyph whose measured width is 256 at column 0:
the stored display width is clamped to 255, refuting `displayWidth = w`. -/
def fC4x' : frame := fC4x.SetContent (fun _ => 256) 0 0 'W' [] StyleDefault

/-- The effective written width computed inside `frame.SetContent`: the
measured width after the defensive `≤ 0 → 1` forcing and the right-edge
clip.  This names the width computation of `SetContent` so that theorems
can refer to it. -/
def setContentWidth (stringWidth : String → Int) (f : frame) (x : Int)
    (text : String) : Int :=
  let width := stringWidth text
  let width := if width ≤ 0 then 1 else width
  if 1 < width ∧ x = f.width - 1 then 1 else width

/-- A 3-column generation-1 frame holding a width-2 lead at column 0 and its
continuation at column 1, used to witness the overwrite theorem. -/
def fC5 : frame :=
  { width := 3, height := 1, gen := 1
    cells := fun i =>
      if i = 0 then
        ⟨"W", StyleDefault, 2, false, -1, cellSignature "W" StyleDefault 2 false (-1), 1⟩
      else if i = 1 then
        ⟨"", StyleDefault, 0, true, 0, cellSignature "" StyleDefault 0 true 0, 1⟩
      else zeroCell
    rowGen := fun _ => 1
    rowStart := fun _ => 0
    rowEnd := fun _ => 2
    clearAll := false }

/-- A fresh generation-0 frame after writing a width-2 glyph at column 0:
the input of the C5 counterexample. -/
def fC5z1 : frame := (newFrame 3 1).SetContent (fun _ => 2) 0 0 'W' [] StyleDefault

/-- `fC5z1` after overwriting column 0 with a width-1 glyph, still at
generation 0: the cleared continuation column still reads as present. -/
def fC5z2 : frame := fC5z1.SetContent (fun _ => 1) 0 0 'a' [] StyleDefault

/-- A 3-column generation-1 frame, input of the C6/C7 witnesses and the C7
counterexample. -/
def fC7 : frame := (newFrame 3 1).beginFrame

/-- `fC7` after a SetContent at column -1 with measured width 2: the
in-bounds trailing continuation column 0 is written even though the lead
coordinate is out of bounds. -/
def fC7' : frame := fC7.SetContent (fun _ => 2) (-1) 0 'W' [] StyleDefault

/-- A 2-column generation-1 frame, input of the C8 witness/counterexample. -/
def fC8 : frame := (newFrame 2 1).beginFrame

/-- Signature coherence: every cell stamped with a nonzero generation stores
exactly the signature of its own fields.  Zero-generation cells (fresh
storage, cleared wide-glyph tails, wraparound resets) are exempt — this is
the inductive strengthening behind the claim's invariant, which at frame
generation 0 can fail exactly as the claim notes. -/
def SigCoherent (f : frame) : Prop :=
  ∀ i : Int, (f.cells i).gen ≠ 0 →
    (f.cells i).sig = cellSignature (f.cells i).text (f.cells i).style
      (f.cells i).dw (f.cells i).cont (f.cells i).leadX

/-- Dirty-span well-formedness: every row whose span is valid for the
current generation has its span inside the column range `[0, width]`.
`markSpan` clamps spans this way in the source; the record embedding states
it as a predicate.  Rows are quantified as `Nat` below `height.toNat` so the
predicate is decidable on concrete frames. -/
def SpanWF (f : frame) : Prop :=
  ∀ r : Nat, r < f.height.toNat → f.rowGen (r : Int) = f.gen →
    0 ≤ f.rowStart (r : Int) ∧ f.rowEnd (r : Int) ≤ f.width

instance (f : frame) : Decidable (SpanWF f) := by
  unfold SpanWF; infer_instance

/-- Field-wise equality of two cells' contents: text, style, display width,
continuation flag, lead column, and stored signature (everything except the
generation stamp). -/
def cellContentEq (a b : cell) : Prop :=
  a.text = b.text ∧ a.style = b.style ∧ a.dw = b.dw ∧ a.cont = b.cont ∧
    a.leadX = b.leadX ∧ a.sig = b.sig

instance (a b : cell) : Decidable (cellContentEq a b) := by
  unfold cellContentEq; infer_instance

/-- Content equality of two frames of equal dimensions: at every in-bounds
coordinate the same cell is present (generation-adjusted) on both sides, and
present cells agree field-wise.  Indexing uses `back`'s width, exactly as
`blitDiff`'s row slices do. -/
def ContentEq (front back : frame) : Prop :=
  ∀ x : Nat, x < back.width.toNat → ∀ y : Nat, y < back.height.toNat →
    (((front.cells ((y : Int) * back.width + (x : Int))).gen = front.gen) ↔
      ((back.cells ((y : Int) * back.width + (x : Int))).gen = back.gen)) ∧
    ((front.cells ((y : Int) * back.width + (x : Int))).gen = front.gen →
      cellContentEq (front.cells ((y : Int) * back.width + (x : Int)))
        (back.cells ((y : Int) * back.width + (x : Int))))

instance (front back : frame) : Decidable (ContentEq front back) := by
  unfold ContentEq; infer_instance

/-- Whether a screen write's string, read as one column per character
(true for the all-ASCII blank-fill runs the blitter emits), spans the cell
`(x, y)`. -/
def opSpansColAscii (op : ScreenOp) (x y : Int) : Bool :=
  match op with
  | .clear => true
  | .putStrStyled x0 y0 s _ =>
    decide (y0 = y) && decide (x0 ≤ x) && decide (x < x0 + (s.length : Int))
  | .put x0 y0 t _ =>
    decide (y0 = y) && decide (x0 ≤ x) && decide (x < x0 + (t.length : Int))

/-- Front frame of the C9 scenario: one present width-1 cell at column 0 of
a 2-column row whose dirty span is `[0, 2)`. -/
def fC9f : frame :=
  { width := 2, height := 1, gen := 1
    cells := fun i =>
      if i = 0 then
        ⟨"a", StyleDefault, 1, false, -1, cellSignature "a" StyleDefault 1 false (-1), 1⟩
      else zeroCell
    rowGen := fun r => if r = 0 then 1 else 0
    rowStart := fun _ => 0
    rowEnd := fun _ => 2
    clearAll := false }

/-- Back frame of the C9 scenario: entirely absent (no dirty span). -/
def fC9b : frame :=
  { width := 2, height := 1, gen := 1
    cells := fun _ => zeroCell
    rowGen := fun _ => 0
    rowStart := fun _ => 0
    rowEnd := fun _ => 0
    clearAll := false }

/-- One cell of the simulated terminal: a glyph with its style, or a
continuation marker recording the lead column of the wide glyph occupying
it (the right-half columns of a wide glyph on a character-cell display). -/
inductive TermCell where
  | glyph (text : String) (style : Style) : TermCell
  | contc (leadX : Int) : TermCell
deriving DecidableEq

/-- The simulated terminal: one cell per coordinate. -/
def Terminal := Int → Int → TermCell

/-- Terminal write of one cluster of width `w` at `(x, y)`: the glyph lands
at column `x` and continuation markers occupy `(x, x+w)`. -/
def termPut (t : Terminal) (x y : Int) (text : String) (style : Style)
    (w : Int) : Terminal :=
  fun a b =>
    if b = y ∧ a = x then .glyph text style
    else if b = y ∧ x < a ∧ a < x + w then .contc x
    else t a b

/-- Terminal write of a styled string from `(x, y)`: successive clusters (as
split by the text-measurement service `seg`) land at successive columns,
each advancing by its width (at least one column, for totality).  The fuel
is the character count of the string: every nonempty cluster consumes at
least one character, so the fuel never runs out on well-behaved input. -/
def termPutStr (seg : String → String × String × Int) (y : Int)
    (style : Style) : Nat → Terminal → Int → String → Terminal
  | 0, t, _, _ => t
  | fuel + 1, t, x, s =>
    if s = "" then t
    else
      let c := seg s
      let w := max c.2.2 1
      termPutStr seg y style fuel (termPut t x y c.1 style w) (x + w) c.2.1

/-- Interpretation of one emitted screen call on the simulated terminal. -/
def applyOp (seg : String → String × String × Int) (t : Terminal) :
    ScreenOp → Terminal
  | .clear => fun _ _ => .glyph " " StyleDefault
  | .putStrStyled x y s st => termPutStr seg y st s.length t x s
  | .put x y text st => termPutStr seg y st text.length t x text

/-- Interpretation of a list of screen calls, in order. -/
def applyOps (seg : String → String × String × Int) (t : Terminal)
    (ops : List ScreenOp) : Terminal :=
  ops.foldl (applyOp seg) t

/-- The row of a frame as an offset function, exactly as `blitDiff` slices
`cells[base : base+width]`. -/
def frameRow (f : frame) (y : Int) : Int → cell :=
  fun i => f.cells (y * f.width + i)

/-- How one cell of a frame row should look on the terminal: an absent cell
is a blank (space in the default style); a covered continuation cell is the
continuation marker of its lead; an orphaned continuation is blanked (the
blitter defensively writes a space there); a present lead shows its glyph. -/
def renderRow (row : Int → cell) (gen : Nat) (width : Int) (x : Int) :
    TermCell :=
  if (row x).gen ≠ gen then .glyph " " StyleDefault
  else if (row x).cont then
    (if isContinuationCoveredByLead row width gen x then .contc (row x).leadX
     else .glyph " " StyleDefault)
  else .glyph (row x).text (row x).style

/-- How a frame should look on the terminal at `(x, y)`. -/
def renderCell (f : frame) (x y : Int) : TermCell :=
  renderRow (frameRow f y) f.gen f.width x

/-- Structural validity of one frame row, relative to the text-measurement
service `seg`: present lead cells carry `leadX = -1`, a positive width, a
nonempty single-cluster text that `seg` splits off any continuation at its
stored width; present continuation cells are empty, zero-width, and point
at a live wide lead whose span covers them; and a present wide lead's
trailing in-bounds columns are its continuation cells. -/
structure RowInv (seg : String → String × String × Int) (row : Int → cell)
    (gen : Nat) (width : Int) : Prop where
  lead_fields : ∀ x : Int, 0 ≤ x → x < width → (row x).gen = gen →
    (row x).cont = false →
    (row x).leadX = -1 ∧ 1 ≤ (row x).dw ∧ (row x).text ≠ "" ∧
    ∀ r : String, seg ((row x).text ++ r) = ((row x).text, r, ((row x).dw : Int))
  cont_ok : ∀ x : Int, 0 ≤ x → x < width → (row x).gen = gen →
    (row x).cont = true →
    (row x).text = "" ∧ (row x).dw = 0 ∧ 0 ≤ (row x).leadX ∧ (row x).leadX < x ∧
    (row (row x).leadX).gen = gen ∧ (row (row x).leadX).cont = false ∧
    1 < (row (row x).leadX).dw ∧ x < (row x).leadX + ((row (row x).leadX).dw : Int)
  closure : ∀ x : Int, 0 ≤ x → x < width → (row x).gen = gen →
    (row x).cont = false → 1 < (row x).dw →
    ∀ j : Int, 1 ≤ j → j < ((row x).dw : Int) → x + j < width →
    (row (x + j)).gen = gen ∧ (row (x + j)).cont = true ∧ (row (x + j)).leadX = x

/-- Validity of a whole frame for the diff-correctness theorem: nonnegative
dimensions, well-formed dirty spans, every present in-bounds cell inside its
row's dirty span, and every row structurally valid (`RowInv`). -/
structure FrameInv (seg : String → String × String × Int) (f : frame) : Prop where
  width_nonneg : 0 ≤ f.width
  height_nonneg : 0 ≤ f.height
  span_wf : SpanWF f
  present_in_span : ∀ x y : Int, 0 ≤ x → x < f.width → 0 ≤ y → y < f.height →
    (frameRow f y x).gen = f.gen →
    f.rowGen y = f.gen ∧ f.rowStart y ≤ x ∧ x < f.rowEnd y
  row_inv : ∀ y : Int, 0 ≤ y → y < f.height → RowInv seg (frameRow f y) f.gen f.width

/-- Field-wise content equality of two row slices over a column range:
matching presence, and matching text/style/width/continuation/lead fields at
present columns.  The diff-correctness theorem assumes the row-signature
hash is collision-free in this sense on the given pair of frames (the
spec's standing assumption about its 64-bit hash). -/
def RowsContentEq (fRow bRow : Int → cell) (fGen bGen : Nat) (s e : Int) : Prop :=
  ∀ t : Int, s ≤ t → t < e →
    (((fRow t).gen = fGen) ↔ ((bRow t).gen = bGen)) ∧
    ((fRow t).gen = fGen →
      (fRow t).text = (bRow t).text ∧ (fRow t).style = (bRow t).style ∧
      (fRow t).dw = (bRow t).dw ∧ (fRow t).cont = (bRow t).cont ∧
      (fRow t).leadX = (bRow t).leadX)

/-- A toy segmentation service for concrete witnesses: every character is
its own cluster of width 1. -/
def asciiSeg : String → String × String × Int := fun s =>
  match s.data with
  | [] => ("", "", 0)
  | c :: rest => (String.mk [c], String.mk rest, 1)

-- DEFS-INSERT-POINT (further definitions are inserted above this line)

/-! ## Structural lemmas about the frame operations -/

theorem beginFrame_width (f : frame) : f.beginFrame.width = f.width := by
  unfold frame.beginFrame; dsimp only; split <;> rfl

theorem beginFrame_height (f : frame) : f.beginFrame.height = f.height := by
  unfold frame.beginFrame; dsimp only; split <;> rfl

theorem beginFrame_gen_ne_zero (f : frame) : f.beginFrame.gen ≠ 0 := by
  unfold frame.beginFrame; dsimp only
  split
  · assumption
  · exact one_ne_zero

theorem beginFrame_cells_gen (f : frame) (i : Int) :
    (f.beginFrame.cells i).gen = (f.cells i).gen ∨ (f.beginFrame.cells i).gen = 0 := by
  unfold frame.beginFrame; dsimp only
  split
  · exact Or.inl rfl
  · exact Or.inr rfl

theorem iterate_beginFrame_width (f : frame) (k : Nat) :
    (frame.beginFrame^[k] f).width = f.width := by
  induction k with
  | zero => rfl
  | succ k ih => rw [Function.iterate_succ_apply', beginFrame_width, ih]

theorem iterate_beginFrame_gen_ne_zero (f : frame) (k : Nat) (hk : 1 ≤ k) :
    (frame.beginFrame^[k] f).gen ≠ 0 := by
  cases k with
  | zero => omega
  | succ k => rw [Function.iterate_succ_apply']; exact beginFrame_gen_ne_zero _

theorem iterate_beginFrame_cells_gen (f : frame) (i : Int) (k : Nat) :
    ((frame.beginFrame^[k] f).cells i).gen = (f.cells i).gen ∨
      ((frame.beginFrame^[k] f).cells i).gen = 0 := by
  induction k with
  | zero => exact Or.inl rfl
  | succ k ih =>
    rw [Function.iterate_succ_apply']
    rcases beginFrame_cells_gen (frame.beginFrame^[k] f) i with h | h
    · rw [h]; exact ih
    · exact Or.inr h

theorem beginFrame_cells_of_nowrap (f : frame) (h : (f.gen + 1) % U32 ≠ 0) :
    f.beginFrame.cells = f.cells := by
  unfold frame.beginFrame; dsimp only
  rw [if_pos h]

theorem iterate_beginFrame_cells_nowrap (f : frame) (k : Nat)
    (h : ∀ j, j < k → ((frame.beginFrame^[j] f).gen + 1) % U32 ≠ 0) :
    (frame.beginFrame^[k] f).cells = f.cells := by
  induction k with
  | zero => rfl
  | succ k ih =>
    rw [Function.iterate_succ_apply',
      beginFrame_cells_of_nowrap _ (h k (Nat.lt_succ_self k)),
      ih (fun j hj => h j (Nat.lt_succ_of_lt hj))]

/-- C3 (confirmed): a cell last written during generation `g1` (its stored
generation) reads as absent via `cellAt` after `beginFrame` has advanced the
frame, through any number `k ≥ 1` of `beginFrame` calls with no intervening
write, to a generation `g2 ≠ g1`; moreover, as long as no `uint32`
wraparound occurs along the way, no per-cell clear is performed (the cell
storage is pointwise untouched). -/
theorem C3_generation_isolation (f : frame) (x y : Int) (k : Nat) (hk : 1 ≤ k)
    (hne : (frame.beginFrame^[k] f).gen ≠ (f.cells (y * f.width + x)).gen) :
    (frame.beginFrame^[k] f).cellAt x y = none ∧
      ((∀ j, j < k → ((frame.beginFrame^[j] f).gen + 1) % U32 ≠ 0) →
        (frame.beginFrame^[k] f).cells = f.cells) := by
  refine ⟨?_, iterate_beginFrame_cells_nowrap f k⟩
  have hw := iterate_beginFrame_width f k
  have hg0 := iterate_beginFrame_gen_ne_zero f k hk
  have hcg := iterate_beginFrame_cells_gen f (y * f.width + x) k
  unfold frame.cellAt
  split
  · rfl
  · dsimp only
    rw [hw]
    rw [if_pos]
    rcases hcg with h | h
    · rw [h]; exact fun hc => hne hc.symm
    · rw [h]; exact fun hc => hg0 hc.symm

/-- Witness for C3 at a concrete frame: generation 1, one present cell;
after one `beginFrame` the generation is 2 and the cell reads as absent. -/
theorem C3_generation_isolation_witness :
    1 ≤ 1 ∧ (frame.beginFrame^[1] fC3).gen ≠ (fC3.cells (0 * fC3.width + 0)).gen ∧
      (frame.beginFrame^[1] fC3).cellAt 0 0 = none :=
  ⟨le_refl 1, by decide,
    (C3_generation_isolation fC3 0 0 1 (le_refl 1) (by decide)).1⟩

end Tview

namespace Tview

theorem markSpan_width (f : frame) (y a b : Int) :
    (f.markSpan y a b).width = f.width := by
  unfold frame.markSpan; dsimp only
  repeat' split
  all_goals rfl

theorem markSpan_height (f : frame) (y a b : Int) :
    (f.markSpan y a b).height = f.height := by
  unfold frame.markSpan; dsimp only
  repeat' split
  all_goals rfl

theorem markSpan_gen (f : frame) (y a b : Int) :
    (f.markSpan y a b).gen = f.gen := by
  unfold frame.markSpan; dsimp only
  repeat' split
  all_goals rfl

theorem markSpan_cells (f : frame) (y a b : Int) :
    (f.markSpan y a b).cells = f.cells := by
  unfold frame.markSpan; dsimp only
  repeat' split
  all_goals rfl

theorem markSpan_clearAll (f : frame) (y a b : Int) :
    (f.markSpan y a b).clearAll = f.clearAll := by
  unfold frame.markSpan; dsimp only
  repeat' split
  all_goals rfl

theorem markSpan_rowGen_ne (f : frame) (y a b r : Int) (h : r ≠ y) :
    (f.markSpan y a b).rowGen r = f.rowGen r := by
  unfold frame.markSpan; dsimp only
  repeat' split
  all_goals simp [h]

theorem markSpan_rowStart_ne (f : frame) (y a b r : Int) (h : r ≠ y) :
    (f.markSpan y a b).rowStart r = f.rowStart r := by
  unfold frame.markSpan; dsimp only
  repeat' split
  all_goals simp [h]

theorem markSpan_rowEnd_ne (f : frame) (y a b r : Int) (h : r ≠ y) :
    (f.markSpan y a b).rowEnd r = f.rowEnd r := by
  unfold frame.markSpan; dsimp only
  repeat' split
  all_goals simp [h]

theorem putCellText_oob (f : frame) (x y : Int) (text : String) (st : Style)
    (dw : Nat) (cont : Bool) (leadX : Int)
    (h : x < 0 ∨ y < 0 ∨ f.width ≤ x ∨ f.height ≤ y) :
    f.putCellText x y text st dw cont leadX = f := by
  unfold frame.putCellText; rw [if_pos h]

theorem putCellText_width (f : frame) (x y : Int) (text : String) (st : Style)
    (dw : Nat) (cont : Bool) (leadX : Int) :
    (f.putCellText x y text st dw cont leadX).width = f.width := by
  unfold frame.putCellText; dsimp only
  repeat' split
  all_goals simp only [markSpan_width]

theorem putCellText_height (f : frame) (x y : Int) (text : String) (st : Style)
    (dw : Nat) (cont : Bool) (leadX : Int) :
    (f.putCellText x y text st dw cont leadX).height = f.height := by
  unfold frame.putCellText; dsimp only
  repeat' split
  all_goals simp only [markSpan_height]

theorem putCellText_gen (f : frame) (x y : Int) (text : String) (st : Style)
    (dw : Nat) (cont : Bool) (leadX : Int) :
    (f.putCellText x y text st dw cont leadX).gen = f.gen := by
  unfold frame.putCellText; dsimp only
  repeat' split
  all_goals simp only [markSpan_gen]

theorem putCellText_clearAll (f : frame) (x y : Int) (text : String)
    (st : Style) (dw : Nat) (cont : Bool) (leadX : Int) :
    (f.putCellText x y text st dw cont leadX).clearAll = f.clearAll := by
  unfold frame.putCellText; dsimp only
  repeat' split
  all_goals simp only [markSpan_clearAll]

end Tview

namespace Tview

theorem putCellText_cells_lt (f : frame) (x y : Int) (text : String) (st : Style)
    (dw : Nat) (cont : Bool) (leadX : Int) (i : Int)
    (hi : i < y * f.width + x) :
    (f.putCellText x y text st dw cont leadX).cells i = f.cells i := by
  unfold frame.putCellText; dsimp only
  split
  · rfl
  · dsimp only
    split
    · exfalso; omega
    · rw [markSpan_cells]
      split
      · split
        · dsimp only
          split
          · exfalso; omega
          · rw [markSpan_cells]
        · rfl
      · rfl

theorem putCellText_cells_ge (f : frame) (x y : Int) (text : String) (st : Style)
    (dw : Nat) (cont : Bool) (leadX : Int) (i : Int)
    (hi : y * f.width + f.width ≤ i) :
    (f.putCellText x y text st dw cont leadX).cells i = f.cells i := by
  unfold frame.putCellText; dsimp only
  split
  · rfl
  · rename_i hin
    dsimp only
    split
    · exfalso; omega
    · rw [markSpan_cells]
      split
      · split
        · dsimp only
          split
          · rename_i hrange
            exfalso
            have hm := min_le_right (x + ((f.cells (y * f.width + x)).dw : Int)) f.width
            omega
          · rw [markSpan_cells]
        · rfl
      · rfl

theorem putCellText_cells_target (f : frame) (x y : Int) (text : String)
    (st : Style) (dw : Nat) (cont : Bool) (leadX : Int)
    (hin : ¬(x < 0 ∨ y < 0 ∨ f.width ≤ x ∨ f.height ≤ y)) :
    (f.putCellText x y text st dw cont leadX).cells (y * f.width + x) =
      ⟨text, st, dw, cont, leadX, cellSignature text st dw cont leadX, f.gen⟩ := by
  unfold frame.putCellText; dsimp only
  rw [if_neg hin]
  dsimp only
  rw [if_pos rfl, markSpan_gen]
  congr 1
  split
  · split
    · dsimp only; rw [markSpan_gen]
    · rfl
  · rfl

theorem putCellText_cells_cleared (f : frame) (x y : Int) (text : String)
    (st : Style) (dw : Nat) (cont : Bool) (leadX : Int)
    (hin : ¬(x < 0 ∨ y < 0 ∨ f.width ≤ x ∨ f.height ≤ y))
    (hprev : (f.cells (y * f.width + x)).gen = f.gen ∧
      (f.cells (y * f.width + x)).cont = false ∧ 1 < (f.cells (y * f.width + x)).dw)
    (i : Int) (hi1 : y * f.width + (x + 1) ≤ i)
    (hi2 : i < y * f.width + min (x + ((f.cells (y * f.width + x)).dw : Int)) f.width) :
    (f.putCellText x y text st dw cont leadX).cells i = zeroCell := by
  unfold frame.putCellText; dsimp only
  rw [if_neg hin]
  dsimp only
  rw [if_neg (by omega : ¬ i = y * f.width + x), markSpan_cells,
    if_pos hprev, if_pos (by omega : x + 1 < min (x + ((f.cells (y * f.width + x)).dw : Int)) f.width)]
  dsimp only
  rw [if_pos ⟨hi1, hi2⟩]

theorem putCellText_cells_noclear (f : frame) (x y : Int) (text : String)
    (st : Style) (dw : Nat) (cont : Bool) (leadX : Int) (i : Int)
    (hne : i ≠ y * f.width + x)
    (h : ¬((f.cells (y * f.width + x)).gen = f.gen ∧
      (f.cells (y * f.width + x)).cont = false ∧ 1 < (f.cells (y * f.width + x)).dw)) :
    (f.putCellText x y text st dw cont leadX).cells i = f.cells i := by
  unfold frame.putCellText; dsimp only
  split
  · rfl
  · dsimp only
    split
    · rename_i heq; exact absurd heq hne
    · rw [markSpan_cells]

theorem putCellText_cells_lastcol (f : frame) (y : Int) (text : String)
    (st : Style) (dw : Nat) (cont : Bool) (leadX : Int) (i : Int)
    (hi : i ≠ y * f.width + (f.width - 1)) :
    (f.putCellText (f.width - 1) y text st dw cont leadX).cells i = f.cells i := by
  unfold frame.putCellText; dsimp only
  split
  · rfl
  · dsimp only
    split
    · exfalso; omega
    · rw [markSpan_cells]
      split
      · split
        · rename_i hwide hlt
          exfalso
          have hm := min_le_right ((f.width - 1) +
            ((f.cells (y * f.width + (f.width - 1))).dw : Int)) f.width
          omega
        · rfl
      · rfl

theorem markSpan_covers (f : frame) (y a b : Int) (hy0 : 0 ≤ y)
    (hy : y < f.height) (ha : 0 ≤ a) (hb : b ≤ f.width) (hab : a < b) :
    (f.markSpan y a b).rowGen y = f.gen ∧
      (f.markSpan y a b).rowStart y ≤ a ∧ b ≤ (f.markSpan y a b).rowEnd y := by
  unfold frame.markSpan; dsimp only
  rw [if_neg (by omega : ¬(y < 0 ∨ f.height ≤ y ∨ b ≤ a)),
    if_neg (by omega : ¬ a < 0), if_neg (by omega : ¬ f.width < b),
    if_neg (by omega : ¬ b ≤ a)]
  split
  · refine ⟨?_, ?_, ?_⟩ <;> · dsimp only; rw [if_pos rfl]
  · rename_i hg
    rw [not_ne_iff] at hg
    refine ⟨hg, ?_, ?_⟩ <;>
      · dsimp only; rw [if_pos rfl]; split <;> omega

theorem markSpan_mono (f : frame) (y a b r : Int) (h : f.rowGen r = f.gen) :
    (f.markSpan y a b).rowGen r = f.gen ∧
      (f.markSpan y a b).rowStart r ≤ f.rowStart r ∧
      f.rowEnd r ≤ (f.markSpan y a b).rowEnd r := by
  rcases eq_or_ne r y with rfl | hne
  · unfold frame.markSpan; dsimp only
    repeat' split
    all_goals (try exact ⟨h, le_refl _, le_refl _⟩)
    all_goals (try exact absurd h ‹f.rowGen r ≠ f.gen›)
    all_goals (refine ⟨h, ?_, ?_⟩ <;> (dsimp only; rw [if_pos rfl]) <;> omega)
  · rw [markSpan_rowGen_ne f y a b r hne, markSpan_rowStart_ne f y a b r hne,
      markSpan_rowEnd_ne f y a b r hne]
    exact ⟨h, le_refl _, le_refl _⟩

end Tview

namespace Tview

theorem putContinuations_width (f : frame) (x y : Int) (st : Style)
    (leadX i : Int) (n : Nat) :
    (f.putContinuations x y st leadX i n).width = f.width := by
  induction n generalizing f i with
  | zero => rfl
  | succ n ih =>
    simp only [frame.putContinuations]
    rw [ih, putCellText_width]

theorem putContinuations_height (f : frame) (x y : Int) (st : Style)
    (leadX i : Int) (n : Nat) :
    (f.putContinuations x y st leadX i n).height = f.height := by
  induction n generalizing f i with
  | zero => rfl
  | succ n ih =>
    simp only [frame.putContinuations]
    rw [ih, putCellText_height]

theorem putContinuations_gen (f : frame) (x y : Int) (st : Style)
    (leadX i : Int) (n : Nat) :
    (f.putContinuations x y st leadX i n).gen = f.gen := by
  induction n generalizing f i with
  | zero => rfl
  | succ n ih =>
    simp only [frame.putContinuations]
    rw [ih, putCellText_gen]

theorem putContinuations_clearAll (f : frame) (x y : Int) (st : Style)
    (leadX i : Int) (n : Nat) :
    (f.putContinuations x y st leadX i n).clearAll = f.clearAll := by
  induction n generalizing f i with
  | zero => rfl
  | succ n ih =>
    simp only [frame.putContinuations]
    rw [ih, putCellText_clearAll]

theorem putContinuations_cells_lt (f : frame) (x y : Int) (st : Style)
    (leadX i : Int) (n : Nat) (j : Int) (hj : j < y * f.width + (x + i)) :
    (f.putContinuations x y st leadX i n).cells j = f.cells j := by
  induction n generalizing f i with
  | zero => rfl
  | succ n ih =>
    simp only [frame.putContinuations]
    have hw := putCellText_width f (x + i) y "" st 0 true leadX
    rw [ih _ (i + 1) (by rw [hw]; omega),
      putCellText_cells_lt f (x + i) y "" st 0 true leadX j (by omega)]

theorem putContinuations_spec (f : frame) (x y : Int) (st : Style)
    (leadX i : Int) (n : Nat) (hy0 : 0 ≤ y) (hy : y < f.height)
    (hxi : 0 ≤ x + i) (hn : x + i + n ≤ f.width) (j : Int)
    (hj1 : i ≤ j) (hj2 : j < i + n) :
    (f.putContinuations x y st leadX i n).cells (y * f.width + (x + j)) =
      ⟨"", st, 0, true, leadX, cellSignature "" st 0 true leadX, f.gen⟩ := by
  induction n generalizing f i with
  | zero => exfalso; omega
  | succ n ih =>
    simp only [frame.putContinuations]
    have hw := putCellText_width f (x + i) y "" st 0 true leadX
    have hh := putCellText_height f (x + i) y "" st 0 true leadX
    have hg := putCellText_gen f (x + i) y "" st 0 true leadX
    rcases eq_or_lt_of_le hj1 with rfl | hlt
    · rw [putContinuations_cells_lt _ x y st leadX (i + 1) n _ (by rw [hw]; omega)]
      exact putCellText_cells_target f (x + i) y "" st 0 true leadX (by omega)
    · have hrec := ih (f.putCellText (x + i) y "" st 0 true leadX) (i + 1)
        (by rw [hh]; omega) (by omega) (by rw [hw]; omega) (by omega) (by omega)
      rw [hw, hg] at hrec
      exact hrec

theorem SetContent_eq_of_wide (stringWidth : String → Int) (f : frame)
    (x y : Int) (primary : Char) (combining : List Char) (style : Style)
    (hpos : 0 < stringWidth (String.mk (primary :: combining)))
    (hne : ¬(1 < stringWidth (String.mk (primary :: combining)) ∧ x = f.width - 1)) :
    f.SetContent stringWidth x y primary combining style =
      (f.putCellText x y (String.mk (primary :: combining)) style
          (widthToCellDW (stringWidth (String.mk (primary :: combining)))) false (-1)).putContinuations
        x y style x 1 (stringWidth (String.mk (primary :: combining)) - 1).toNat := by
  unfold frame.SetContent; dsimp only
  rw [if_neg (by omega : ¬ stringWidth (String.mk (primary :: combining)) ≤ 0),
    if_neg hne]

theorem SetContent_eq_clip (stringWidth : String → Int) (f : frame)
    (x y : Int) (primary : Char) (combining : List Char) (style : Style)
    (hgt : 1 < stringWidth (String.mk (primary :: combining)))
    (hx : x = f.width - 1) :
    f.SetContent stringWidth x y primary combining style =
      f.putCellText x y " " style 1 false (-1) := by
  unfold frame.SetContent; dsimp only
  rw [if_neg (by omega : ¬ stringWidth (String.mk (primary :: combining)) ≤ 0),
    if_pos ⟨hgt, hx⟩]
  rfl

theorem SetContent_eq_of_nonpos (stringWidth : String → Int) (f : frame)
    (x y : Int) (primary : Char) (combining : List Char) (style : Style)
    (hle : stringWidth (String.mk (primary :: combining)) ≤ 0) :
    f.SetContent stringWidth x y primary combining style =
      f.putCellText x y (String.mk (primary :: combining)) style 1 false (-1) := by
  unfold frame.SetContent; dsimp only
  rw [if_pos hle, if_neg (by simp : ¬((1 : Int) < 1 ∧ x = f.width - 1))]
  rfl

theorem SetContent_eq_of_one (stringWidth : String → Int) (f : frame)
    (x y : Int) (primary : Char) (combining : List Char) (style : Style)
    (hw : stringWidth (String.mk (primary :: combining)) = 1) :
    f.SetContent stringWidth x y primary combining style =
      f.putCellText x y (String.mk (primary :: combining)) style 1 false (-1) := by
  rw [SetContent_eq_of_wide stringWidth f x y primary combining style
    (by omega) (by rw [hw]; simp), hw]
  rfl

end Tview

namespace Tview

theorem cellAt_eq_some (f : frame) (x y : Int) (hx0 : 0 ≤ x) (hx : x < f.width)
    (hy0 : 0 ≤ y) (hy : y < f.height)
    (h : (f.cells (y * f.width + x)).gen = f.gen) :
    f.cellAt x y = some (f.cells (y * f.width + x)) := by
  unfold frame.cellAt
  rw [if_neg (by omega : ¬(x < 0 ∨ y < 0 ∨ f.width ≤ x ∨ f.height ≤ y))]
  dsimp only
  rw [if_neg (not_ne_iff.mpr h)]

theorem cellAt_eq_none_of_gen (f : frame) (x y : Int)
    (h : (f.cells (y * f.width + x)).gen ≠ f.gen) : f.cellAt x y = none := by
  unfold frame.cellAt
  split
  · rfl
  · dsimp only; rw [if_pos h]

theorem cellAt_some_inv (f : frame) (x y : Int) (c : cell)
    (h : f.cellAt x y = some c) :
    0 ≤ x ∧ x < f.width ∧ 0 ≤ y ∧ y < f.height ∧
      f.cells (y * f.width + x) = c ∧ c.gen = f.gen := by
  unfold frame.cellAt at h
  split at h
  · exact absurd h (by simp)
  · dsimp only at h
    split at h
    · exact absurd h (by simp)
    · rename_i hoob hgen
      obtain rfl := Option.some_inj.mp h
      exact ⟨by omega, by omega, by omega, by omega, rfl, not_ne_iff.mp hgen⟩

theorem widthToCellDW_int_eq (w : Int) (h : 2 ≤ w) :
    ((widthToCellDW w : Nat) : Int) = min w 255 := by
  unfold widthToCellDW
  rw [if_neg (by omega)]
  split <;> omega

theorem markSpan_congr_cells (F : frame) (g : Int → cell) (y a b : Int) :
    frame.markSpan { F with cells := g } y a b =
      { F.markSpan y a b with cells := g } := by
  unfold frame.markSpan; dsimp only
  repeat' split
  all_goals rfl

theorem putCellText_span_cleared (f : frame) (x y : Int) (text : String)
    (st : Style) (dw : Nat) (cont : Bool) (leadX : Int)
    (hin : ¬(x < 0 ∨ y < 0 ∨ f.width ≤ x ∨ f.height ≤ y))
    (hprev : (f.cells (y * f.width + x)).gen = f.gen ∧
      (f.cells (y * f.width + x)).cont = false ∧ 1 < (f.cells (y * f.width + x)).dw)
    (hlt : x + 1 < min (x + ((f.cells (y * f.width + x)).dw : Int)) f.width) :
    (f.putCellText x y text st dw cont leadX).rowGen y = f.gen ∧
      (f.putCellText x y text st dw cont leadX).rowStart y ≤ x + 1 ∧
      min (x + ((f.cells (y * f.width + x)).dw : Int)) f.width ≤
        (f.putCellText x y text st dw cont leadX).rowEnd y := by
  unfold frame.putCellText; dsimp only
  rw [if_neg hin]
  dsimp only
  rw [if_pos hprev, if_pos hlt, markSpan_congr_cells]
  dsimp only
  obtain ⟨g1, s1, e1⟩ := markSpan_covers f y (x + 1)
    (min (x + ((f.cells (y * f.width + x)).dw : Int)) f.width)
    (by omega) (by omega) (by omega) (min_le_right _ _) hlt
  have hg2 : (f.markSpan y (x + 1)
      (min (x + ((f.cells (y * f.width + x)).dw : Int)) f.width)).rowGen y =
      (f.markSpan y (x + 1)
        (min (x + ((f.cells (y * f.width + x)).dw : Int)) f.width)).gen := by
    rw [markSpan_gen]; exact g1
  obtain ⟨m1, m2, m3⟩ := markSpan_mono
    (f.markSpan y (x + 1) (min (x + ((f.cells (y * f.width + x)).dw : Int)) f.width))
    y x (x + 1) y hg2
  rw [markSpan_gen] at m1
  exact ⟨m1, le_trans m2 s1, le_trans e1 m3⟩

end Tview

namespace Tview

/-- C4 (corrected): writing a glyph of measured display width `w ≥ 2` at an
in-bounds `(x, y)` with `x + w ≤ width` leaves, at every column
`c ∈ [x+1, x+w)`, a valid continuation cell with `isContinuation = true` and
`leadColumn = x`, and at `(x, y)` a valid non-continuation lead cell.  The
lead's stored display width is `w` clamped into `uint8` (`min w 255`, by
`widthToCellDW`); the claim's unconditional `displayWidth = w` fails for
`w > 255`. -/
theorem C4_wide_glyph_invariant (stringWidth : String → Int) (f : frame)
    (x y : Int) (primary : Char) (combining : List Char) (style : Style)
    (w : Int) (hw : stringWidth (String.mk (primary :: combining)) = w)
    (h2 : 2 ≤ w) (hx : 0 ≤ x) (hy0 : 0 ≤ y) (hy : y < f.height)
    (hxw : x + w ≤ f.width) :
    (∀ c, x + 1 ≤ c → c < x + w →
      ∃ cc, (f.SetContent stringWidth x y primary combining style).cellAt c y
          = some cc ∧ cc.cont = true ∧ cc.leadX = x) ∧
    (∃ lc, (f.SetContent stringWidth x y primary combining style).cellAt x y
        = some lc ∧ lc.cont = false ∧ (lc.dw : Int) = min w 255) := by
  have hxlt : x < f.width := by omega
  have heq := SetContent_eq_of_wide stringWidth f x y primary combining style
    (by omega) (by rw [hw]; rintro ⟨h1, h2'⟩; omega)
  rw [hw] at heq
  have hGw := putCellText_width f x y (String.mk (primary :: combining)) style
    (widthToCellDW w) false (-1)
  have hGh := putCellText_height f x y (String.mk (primary :: combining)) style
    (widthToCellDW w) false (-1)
  have hGg := putCellText_gen f x y (String.mk (primary :: combining)) style
    (widthToCellDW w) false (-1)
  have hFw : (f.SetContent stringWidth x y primary combining style).width = f.width := by
    rw [heq, putContinuations_width, hGw]
  have hFh : (f.SetContent stringWidth x y primary combining style).height = f.height := by
    rw [heq, putContinuations_height, hGh]
  have hFg : (f.SetContent stringWidth x y primary combining style).gen = f.gen := by
    rw [heq, putContinuations_gen, hGg]
  constructor
  · intro c hc1 hc2
    have hcell := putContinuations_spec
      (f.putCellText x y (String.mk (primary :: combining)) style
        (widthToCellDW w) false (-1)) x y style x 1 (w - 1).toNat
      hy0 (by rw [hGh]; exact hy) (by omega) (by rw [hGw]; omega)
      (c - x) (by omega) (by omega)
    rw [hGw, hGg] at hcell
    have hxx : x + (c - x) = c := by omega
    rw [hxx] at hcell
    refine ⟨⟨"", style, 0, true, x, cellSignature "" style 0 true x, f.gen⟩,
      ?_, rfl, rfl⟩
    have hsome := cellAt_eq_some (f.SetContent stringWidth x y primary combining style)
      c y (by omega) (by rw [hFw]; omega) hy0 (by rw [hFh]; exact hy) ?_
    · rw [hsome, hFw, heq, hcell]
    · rw [hFw, heq, hcell, putContinuations_gen, hGg]
  · refine ⟨⟨String.mk (primary :: combining), style, widthToCellDW w, false, -1,
      cellSignature (String.mk (primary :: combining)) style (widthToCellDW w)
        false (-1), f.gen⟩, ?_, rfl, widthToCellDW_int_eq w h2⟩
    have hcell : (f.SetContent stringWidth x y primary combining style).cells
        (y * f.width + x) =
        ⟨String.mk (primary :: combining), style, widthToCellDW w, false, -1,
          cellSignature (String.mk (primary :: combining)) style (widthToCellDW w)
            false (-1), f.gen⟩ := by
      rw [heq, putContinuations_cells_lt _ x y style x 1 _ _ (by rw [hGw]; omega)]
      exact putCellText_cells_target f x y (String.mk (primary :: combining))
        style (widthToCellDW w) false (-1) (by omega)
    have hsome := cellAt_eq_some (f.SetContent stringWidth x y primary combining style)
      x y hx (by rw [hFw]; omega) hy0 (by rw [hFh]; exact hy) ?_
    · rw [hsome, hFw, hcell]
    · rw [hFw, hcell, hFg]

/-- Witness for C4 at a concrete input: width-3 frame, width-2 glyph at
column 0; column 1 holds a continuation cell pointing at lead column 0. -/
theorem C4_wide_glyph_invariant_witness :
    (2 : Int) ≤ 2 ∧ 0 + 2 ≤ fC4w.width ∧
    (∃ cc, (fC4w.SetContent (fun _ => 2) 0 0 'W' [] StyleDefault).cellAt 1 0
        = some cc ∧ cc.cont = true ∧ cc.leadX = 0) :=
  ⟨le_refl 2, by decide,
    (C4_wide_glyph_invariant (fun _ => 2) fC4w 0 0 'W' [] StyleDefault 2 rfl
      (le_refl 2) (le_refl 0) (le_refl 0) (by decide) (by decide)).1 1
      (by omega) (by omega)⟩

/-- Counterexample to C4 exactly as stated: with measured width `w = 256`
(allowed by the spec's text-measurement interface) at column 0 of a
256-column frame, the stored lead cell reports display width 255, not
`w = 256`, because `widthToCellDW` clamps into `uint8`. -/
theorem C4_wide_glyph_invariant_counterexample :
    Option.map cell.dw (fC4x'.cellAt 0 0) = some (widthToCellDW 256) ∧
      widthToCellDW 256 = 255 ∧ (255 : Nat) ≠ 256 := by
  refine ⟨?_, by decide, by decide⟩
  have heq : fC4x.SetContent (fun _ => 256) 0 0 'W' [] StyleDefault =
      (fC4x.putCellText 0 0 (String.mk ['W']) StyleDefault
        (widthToCellDW 256) false (-1)).putContinuations 0 0 StyleDefault 0 1 255 :=
    SetContent_eq_of_wide (fun _ => 256) fC4x 0 0 'W' [] StyleDefault
      (by decide) (by decide)
  have hGw := putCellText_width fC4x 0 0 (String.mk ['W']) StyleDefault
    (widthToCellDW 256) false (-1)
  have hGg := putCellText_gen fC4x 0 0 (String.mk ['W']) StyleDefault
    (widthToCellDW 256) false (-1)
  have hwv : fC4x.width = 256 := by decide
  have hcell : fC4x'.cells 0 =
      ⟨String.mk ['W'], StyleDefault, widthToCellDW 256, false, -1,
        cellSignature (String.mk ['W']) StyleDefault (widthToCellDW 256)
          false (-1), fC4x.gen⟩ := by
    have hunf : fC4x' = fC4x.SetContent (fun _ => 256) 0 0 'W' [] StyleDefault := rfl
    rw [hunf, heq]
    have hlt := putContinuations_cells_lt
      (fC4x.putCellText 0 0 (String.mk ['W']) StyleDefault
        (widthToCellDW 256) false (-1)) 0 0 StyleDefault 0 1 255 0
      (by rw [hGw, hwv]; omega)
    rw [hlt]
    have htgt := putCellText_cells_target fC4x 0 0 (String.mk ['W'])
      StyleDefault (widthToCellDW 256) false (-1) (by rw [hwv]; decide)
    have h00 : (0 : Int) * fC4x.width + 0 = 0 := by ring
    rw [h00] at htgt
    exact htgt
  have hunf : fC4x' = fC4x.SetContent (fun _ => 256) 0 0 'W' [] StyleDefault := rfl
  have hFw : fC4x'.width = fC4x.width := by
    rw [hunf, heq, putContinuations_width, hGw]
  have hFh : fC4x'.height = fC4x.height := by
    rw [hunf, heq, putContinuations_height,
      putCellText_height fC4x 0 0 (String.mk ['W']) StyleDefault
        (widthToCellDW 256) false (-1)]
  have hFg : fC4x'.gen = fC4x.gen := by
    rw [hunf, heq, putContinuations_gen, hGg]
  have hsome := cellAt_eq_some fC4x' 0 0 (le_refl 0)
    (by rw [hFw, hwv]; omega) (le_refl 0) (by rw [hFh]; decide) ?_
  · rw [hsome]
    have hidx : (0 : Int) * fC4x'.width + 0 = 0 := by ring
    rw [hidx, hcell]
    rfl
  · have hidx : (0 : Int) * fC4x'.width + 0 = 0 := by ring
    rw [hidx, hcell, hFg]


end Tview

namespace Tview

theorem putContinuations_oob_y (f : frame) (x y : Int) (st : Style)
    (leadX i : Int) (n : Nat) (hy : y < 0 ∨ f.height ≤ y) :
    f.putContinuations x y st leadX i n = f := by
  induction n generalizing f i with
  | zero => rfl
  | succ n ih =>
    simp only [frame.putContinuations]
    rw [putCellText_oob _ _ _ _ _ _ _ _ (by omega), ih _ _ hy]

theorem putContinuations_oob_right (f : frame) (x y : Int) (st : Style)
    (leadX i : Int) (n : Nat) (hx : f.width ≤ x) (hi : 0 ≤ i) :
    f.putContinuations x y st leadX i n = f := by
  induction n generalizing f i with
  | zero => rfl
  | succ n ih =>
    simp only [frame.putContinuations]
    rw [putCellText_oob _ _ _ _ _ _ _ _ (by omega), ih _ _ hx (by omega)]

theorem putContinuations_oob_left (f : frame) (x y : Int) (st : Style)
    (leadX i : Int) (n : Nat) (hneg : x + i + n ≤ 0) :
    f.putContinuations x y st leadX i n = f := by
  induction n generalizing f i with
  | zero => rfl
  | succ n ih =>
    simp only [frame.putContinuations]
    rw [putCellText_oob _ _ _ _ _ _ _ _ (by omega), ih _ _ (by omega)]

theorem putContinuations_oob_nowidth (f : frame) (x y : Int) (st : Style)
    (leadX i : Int) (n : Nat) (hw : f.width ≤ 0) :
    f.putContinuations x y st leadX i n = f := by
  induction n generalizing f i with
  | zero => rfl
  | succ n ih =>
    simp only [frame.putContinuations]
    rw [putCellText_oob _ _ _ _ _ _ _ _ (by omega), ih _ _ hw]

theorem SetContent_oob_y (stringWidth : String → Int) (f : frame) (x y : Int)
    (primary : Char) (combining : List Char) (style : Style)
    (hy : y < 0 ∨ f.height ≤ y) :
    f.SetContent stringWidth x y primary combining style = f := by
  unfold frame.SetContent; dsimp only
  repeat' split
  all_goals rw [putCellText_oob _ _ _ _ _ _ _ _ (by omega),
    putContinuations_oob_y _ _ _ _ _ _ _ hy]

theorem SetContent_oob_right (stringWidth : String → Int) (f : frame)
    (x y : Int) (primary : Char) (combining : List Char) (style : Style)
    (hx : f.width ≤ x) :
    f.SetContent stringWidth x y primary combining style = f := by
  unfold frame.SetContent; dsimp only
  repeat' split
  all_goals rw [putCellText_oob _ _ _ _ _ _ _ _ (by omega),
    putContinuations_oob_right _ _ _ _ _ _ _ hx (by omega)]

theorem SetContent_oob_left (stringWidth : String → Int) (f : frame)
    (x y : Int) (primary : Char) (combining : List Char) (style : Style)
    (hx : x < 0)
    (hcase : setContentWidth stringWidth f x (String.mk (primary :: combining)) ≤ 1 ∨
      x + setContentWidth stringWidth f x (String.mk (primary :: combining)) ≤ 0 ∨
      f.width ≤ 0) :
    f.SetContent stringWidth x y primary combining style = f := by
  by_cases hpos : stringWidth (String.mk (primary :: combining)) ≤ 0
  · rw [SetContent_eq_of_nonpos stringWidth f x y primary combining style hpos,
      putCellText_oob _ _ _ _ _ _ _ _ (by omega)]
  · by_cases hclip : 1 < stringWidth (String.mk (primary :: combining)) ∧
        x = f.width - 1
    · rw [SetContent_eq_clip stringWidth f x y primary combining style hclip.1
        hclip.2, putCellText_oob _ _ _ _ _ _ _ _ (by omega)]
    · have hW : setContentWidth stringWidth f x (String.mk (primary :: combining))
          = stringWidth (String.mk (primary :: combining)) := by
        unfold setContentWidth; dsimp only
        rw [if_neg hpos, if_neg hclip]
      rw [hW] at hcase
      rw [SetContent_eq_of_wide stringWidth f x y primary combining style
        (by omega) hclip, putCellText_oob _ _ _ _ _ _ _ _ (by omega)]
      rcases hcase with h1 | h2 | h3
      · have hn : (stringWidth (String.mk (primary :: combining)) - 1).toNat = 0 := by
          omega
        rw [hn]
        rfl
      · exact putContinuations_oob_left _ _ _ _ _ _ _ (by omega)
      · exact putContinuations_oob_nowidth _ _ _ _ _ _ _ h3

theorem capPut_eq_clip (seg : String → String × String × Int)
    (decode : String → Option (String × String)) (f : frame) (x y : Int)
    (str : String) (style : Style) (cluster remain : String) (w : Int)
    (hstr : str ≠ "") (hseg : seg str = (cluster, remain, w))
    (hcl : cluster ≠ "") (hw : 1 < w) (hx : x = f.width - 1) :
    capPut seg decode f x y str style =
      (f.putCellText x y " " style 1 false (-1), remain, 1) := by
  unfold capPut
  rw [if_neg hstr]
  dsimp only
  rw [hseg]
  dsimp only
  rw [if_neg hcl]
  dsimp only
  rw [if_neg (by omega : ¬ w ≤ 0), if_pos ⟨hw, hx⟩]
  rfl

theorem capPut_eq_skip (seg : String → String × String × Int)
    (decode : String → Option (String × String)) (f : frame) (x y : Int)
    (str : String) (style : Style) (cluster remain : String) (w : Int)
    (hstr : str ≠ "") (hseg : seg str = (cluster, remain, w))
    (hcl : cluster ≠ "") (hw : w ≤ 0) :
    capPut seg decode f x y str style = (f, remain, 0) := by
  unfold capPut
  rw [if_neg hstr]
  dsimp only
  rw [hseg]
  dsimp only
  rw [if_neg hcl]
  dsimp only
  rw [if_pos hw]

end Tview

namespace Tview

/-- C5 (corrected): overwriting a live non-continuation wide lead at `(x, y)`
with a width-1 glyph in the same generation clears every trailing column in
`[x+1, x+w)` (clamped to the frame width) back to absent and extends the
row's dirty span over them — provided the frame's generation is nonzero.
The claim's unconditional form fails at generation 0, where the cleared
zero-value cells (generation 0) still read as present via `cellAt`. -/
theorem C5_overwrite_clears_tail (stringWidth : String → Int) (f : frame)
    (x y : Int) (primary : Char) (combining : List Char) (style : Style)
    (hgen : f.gen ≠ 0) (c0 : cell) (hc0 : f.cellAt x y = some c0)
    (hcont : c0.cont = false) (hdw : 1 < c0.dw)
    (h1 : stringWidth (String.mk (primary :: combining)) = 1) :
    (∀ c, x + 1 ≤ c → c < min (x + (c0.dw : Int)) f.width →
      (f.SetContent stringWidth x y primary combining style).cellAt c y = none) ∧
    (x + 1 < min (x + (c0.dw : Int)) f.width →
      (f.SetContent stringWidth x y primary combining style).rowGen y = f.gen ∧
      (f.SetContent stringWidth x y primary combining style).rowStart y ≤ x + 1 ∧
      min (x + (c0.dw : Int)) f.width ≤
        (f.SetContent stringWidth x y primary combining style).rowEnd y) := by
  obtain ⟨hx0, hxw, hy0, hyh, hcells, hcgen⟩ := cellAt_some_inv f x y c0 hc0
  have hin : ¬(x < 0 ∨ y < 0 ∨ f.width ≤ x ∨ f.height ≤ y) := by omega
  have heq := SetContent_eq_of_one stringWidth f x y primary combining style h1
  have hprev : (f.cells (y * f.width + x)).gen = f.gen ∧
      (f.cells (y * f.width + x)).cont = false ∧
      1 < (f.cells (y * f.width + x)).dw := by
    rw [hcells]; exact ⟨hcgen, hcont, hdw⟩
  have hFw := putCellText_width f x y (String.mk (primary :: combining))
    style 1 false (-1)
  have hFg := putCellText_gen f x y (String.mk (primary :: combining))
    style 1 false (-1)
  constructor
  · intro c hc1 hc2
    rw [heq]
    have hcl := putCellText_cells_cleared f x y (String.mk (primary :: combining))
      style 1 false (-1) hin hprev (y * f.width + c) (by omega)
      (by rw [hcells]; omega)
    apply cellAt_eq_none_of_gen
    rw [hFw, hcl, hFg]
    show (0 : Nat) ≠ f.gen
    omega
  · intro hlt
    rw [heq]
    have hsp := putCellText_span_cleared f x y (String.mk (primary :: combining))
      style 1 false (-1) hin hprev (by rw [hcells]; omega)
    rw [hcells] at hsp
    exact hsp

/-- Witness for C5: a generation-1 frame with a width-2 lead at column 0;
after overwriting with a width-1 glyph, column 1 reads as absent. -/
theorem C5_overwrite_clears_tail_witness :
    fC5.gen ≠ 0 ∧
    fC5.cellAt 0 0 = some ⟨"W", StyleDefault, 2, false, -1,
      cellSignature "W" StyleDefault 2 false (-1), 1⟩ ∧
    (fC5.SetContent (fun _ => 1) 0 0 'a' [] StyleDefault).cellAt 1 0 = none :=
  ⟨by decide, rfl,
    (C5_overwrite_clears_tail (fun _ => 1) fC5 0 0 'a' [] StyleDefault
      (by decide)
      ⟨"W", StyleDefault, 2, false, -1, cellSignature "W" StyleDefault 2 false (-1), 1⟩
      rfl rfl (by decide) rfl).1 1 (by omega) (by decide)⟩

/-- Counterexample to C5 exactly as stated: on a fresh (generation-0) frame,
a width-2 glyph at column 0 followed by a width-1 overwrite leaves column 1
cleared to the zero cell — whose generation 0 still matches the frame
generation, so `cellAt` reports it as present, not absent. -/
theorem C5_overwrite_clears_tail_counterexample :
    Option.map cell.cont (fC5z1.cellAt 0 0) = some false ∧
    Option.map cell.dw (fC5z1.cellAt 0 0) = some 2 ∧
    fC5z1.gen = 0 ∧
    fC5z2.cellAt 1 0 = some zeroCell ∧
    (some zeroCell ≠ (none : Option cell)) := by
  refine ⟨by decide, by decide, by decide, by decide, by decide⟩

/-- C6 (confirmed): writing a glyph whose measured width exceeds 1 at the
last column `W-1` stores a single width-1 space there, writes no
continuation cells, and changes no other cell (in particular nothing at or
beyond column `W`) — for both `SetContent` and the capture screen's `Put`,
which also reports consumed width 1. -/
theorem C6_clip_at_right_edge (stringWidth : String → Int)
    (seg : String → String × String × Int)
    (decode : String → Option (String × String)) (f : frame) (y : Int)
    (hw1 : 1 ≤ f.width) (hy0 : 0 ≤ y) (hy : y < f.height)
    (primary : Char) (combining : List Char) (style : Style)
    (hwide : 1 < stringWidth (String.mk (primary :: combining)))
    (str cluster remain : String) (w : Int) (hstr : str ≠ "")
    (hseg : seg str = (cluster, remain, w)) (hcl : cluster ≠ "") (hsw : 1 < w) :
    ((∃ sc, (f.SetContent stringWidth (f.width - 1) y primary combining style).cellAt
        (f.width - 1) y = some sc ∧ sc.text = " " ∧ sc.dw = 1 ∧ sc.cont = false) ∧
      (∀ i, i ≠ y * f.width + (f.width - 1) →
        (f.SetContent stringWidth (f.width - 1) y primary combining style).cells i
          = f.cells i)) ∧
    ((capPut seg decode f (f.width - 1) y str style).2.1 = remain ∧
      (capPut seg decode f (f.width - 1) y str style).2.2 = 1 ∧
      (∃ sc, (capPut seg decode f (f.width - 1) y str style).1.cellAt
          (f.width - 1) y = some sc ∧ sc.text = " " ∧ sc.dw = 1 ∧ sc.cont = false) ∧
      (∀ i, i ≠ y * f.width + (f.width - 1) →
        (capPut seg decode f (f.width - 1) y str style).1.cells i = f.cells i)) := by
  have hin : ¬(f.width - 1 < 0 ∨ y < 0 ∨ f.width ≤ f.width - 1 ∨ f.height ≤ y) := by
    omega
  have hclip := SetContent_eq_clip stringWidth f (f.width - 1) y primary
    combining style hwide rfl
  have hput := capPut_eq_clip seg decode f (f.width - 1) y str style cluster
    remain w hstr hseg hcl hsw rfl
  have hFw := putCellText_width f (f.width - 1) y " " style 1 false (-1)
  have hFh := putCellText_height f (f.width - 1) y " " style 1 false (-1)
  have hFg := putCellText_gen f (f.width - 1) y " " style 1 false (-1)
  have htgt := putCellText_cells_target f (f.width - 1) y " " style 1 false
    (-1) hin
  have hmain : ∃ sc, (f.putCellText (f.width - 1) y " " style 1 false
      (-1)).cellAt (f.width - 1) y = some sc ∧ sc.text = " " ∧ sc.dw = 1 ∧
      sc.cont = false := by
    refine ⟨⟨" ", style, 1, false, -1,
      cellSignature " " style 1 false (-1), f.gen⟩, ?_, rfl, rfl, rfl⟩
    have hsome := cellAt_eq_some (f.putCellText (f.width - 1) y " " style 1
      false (-1)) (f.width - 1) y (by omega) (by rw [hFw]; omega) hy0
      (by rw [hFh]; exact hy) ?_
    · rw [hsome, hFw, htgt]
    · rw [hFw, htgt, hFg]
  refine ⟨⟨?_, ?_⟩, ?_, ?_, ?_, ?_⟩
  · rw [hclip]; exact hmain
  · intro i hi
    rw [hclip]
    exact putCellText_cells_lastcol f y " " style 1 false (-1) i hi
  · rw [hput]
  · rw [hput]
  · rw [hput]; exact hmain
  · intro i hi
    rw [hput]
    exact putCellText_cells_lastcol f y " " style 1 false (-1) i hi

/-- Witness for C6: width-3 frame, width-2 glyph written at the last
column 2 via both operations; the last column holds a single space. -/
theorem C6_clip_at_right_edge_witness :
    1 ≤ fC7.width ∧ (1 : Int) < 2 ∧
    (∃ sc, (fC7.SetContent (fun _ => 2) (fC7.width - 1) 0 'W' [] StyleDefault).cellAt
      (fC7.width - 1) 0 = some sc ∧ sc.text = " " ∧ sc.dw = 1 ∧ sc.cont = false) :=
  ⟨by decide, by decide,
    ((C6_clip_at_right_edge (fun _ => 2) (fun _ => ("W", "", 2)) (fun _ => none)
      fC7 0 (by decide) (le_refl 0) (by decide) 'W' [] StyleDefault (by decide)
      "W" "W" "" 2 (by decide) rfl (by decide) (by decide)).1).1⟩

/-- C7 (corrected): an out-of-bounds `SetContent` is a complete no-op (the
frame record is unchanged, hence no cell and no dirty-span metadata changes,
and being a total function it cannot panic) whenever the row is out of
bounds, or `x ≥ width`, or `x < 0` and the glyph — of effective width `W`
(`setContentWidth`) — does not reach column 0 (`x + W ≤ 0`), or is narrow
(`W ≤ 1`), or the frame has no columns.  The claim's unconditional form
fails when `x < 0 < x + W`: the in-bounds trailing continuation columns are
still written. -/
theorem C7_out_of_bounds_ignored (stringWidth : String → Int) (f : frame)
    (x y : Int) (primary : Char) (combining : List Char) (style : Style)
    (hoob : y < 0 ∨ f.height ≤ y ∨ f.width ≤ x ∨
      (x < 0 ∧ (setContentWidth stringWidth f x (String.mk (primary :: combining)) ≤ 1 ∨
        x + setContentWidth stringWidth f x (String.mk (primary :: combining)) ≤ 0 ∨
        f.width ≤ 0))) :
    f.SetContent stringWidth x y primary combining style = f := by
  rcases hoob with hy | hy | hx | ⟨hxneg, hrest⟩
  · exact SetContent_oob_y stringWidth f x y primary combining style (Or.inl hy)
  · exact SetContent_oob_y stringWidth f x y primary combining style (Or.inr hy)
  · exact SetContent_oob_right stringWidth f x y primary combining style hx
  · exact SetContent_oob_left stringWidth f x y primary combining style hxneg hrest

/-- Witness for C7: row 5 is out of bounds in a height-1 frame, and the
write leaves the frame untouched. -/
theorem C7_out_of_bounds_ignored_witness :
    (fC7.height ≤ 5 ∨ False) ∧
    fC7.SetContent (fun _ => 2) 0 5 'W' [] StyleDefault = fC7 :=
  ⟨Or.inl (by decide),
    C7_out_of_bounds_ignored (fun _ => 2) fC7 0 5 'W' [] StyleDefault
      (Or.inr (Or.inl (by decide)))⟩

/-- Counterexample to C7 exactly as stated: `SetContent` at the
out-of-bounds coordinate `x = -1` with a width-2 glyph writes an orphaned
continuation cell at the in-bounds column 0, so the frame is not unchanged. -/
theorem C7_out_of_bounds_ignored_counterexample :
    (-1 : Int) < 0 ∧
    fC7'.cells 0 ≠ fC7.cells 0 ∧
    Option.map cell.cont (fC7'.cellAt 0 0) = some true ∧
    Option.map cell.leadX (fC7'.cellAt 0 0) = some (-1) := by
  refine ⟨by decide, by decide, by decide, by decide⟩

/-- C8 (corrected): a grapheme cluster whose measured display width is zero
or negative is forced to width 1 and stored by `SetContent`; the capture
screen's `Put`, however, does not store it — it consumes the cluster and
returns width 0, leaving the frame unchanged.  The claim's symmetric
treatment of `Put` fails. -/
theorem C8_nonpositive_width_forced (stringWidth : String → Int)
    (seg : String → String × String × Int)
    (decode : String → Option (String × String)) (f : frame) (x y : Int)
    (primary : Char) (combining : List Char) (style : Style)
    (hle : stringWidth (String.mk (primary :: combining)) ≤ 0)
    (hx0 : 0 ≤ x) (hx : x < f.width) (hy0 : 0 ≤ y) (hy : y < f.height)
    (str cluster remain : String) (w : Int) (hstr : str ≠ "")
    (hseg : seg str = (cluster, remain, w)) (hcl : cluster ≠ "") (hw : w ≤ 0) :
    (∃ sc, (f.SetContent stringWidth x y primary combining style).cellAt x y
        = some sc ∧ sc.text = String.mk (primary :: combining) ∧ sc.dw = 1 ∧
        sc.cont = false) ∧
    capPut seg decode f x y str style = (f, remain, 0) := by
  constructor
  · rw [SetContent_eq_of_nonpos stringWidth f x y primary combining style hle]
    have hin : ¬(x < 0 ∨ y < 0 ∨ f.width ≤ x ∨ f.height ≤ y) := by omega
    have htgt := putCellText_cells_target f x y (String.mk (primary :: combining))
      style 1 false (-1) hin
    have hFw := putCellText_width f x y (String.mk (primary :: combining))
      style 1 false (-1)
    have hFh := putCellText_height f x y (String.mk (primary :: combining))
      style 1 false (-1)
    have hFg := putCellText_gen f x y (String.mk (primary :: combining))
      style 1 false (-1)
    refine ⟨⟨String.mk (primary :: combining), style, 1, false, -1,
      cellSignature (String.mk (primary :: combining)) style 1 false (-1),
      f.gen⟩, ?_, rfl, rfl, rfl⟩
    have hsome := cellAt_eq_some (f.putCellText x y
      (String.mk (primary :: combining)) style 1 false (-1)) x y hx0
      (by rw [hFw]; omega) hy0 (by rw [hFh]; exact hy) ?_
    · rw [hsome, hFw, htgt]
    · rw [hFw, htgt, hFg]
  · exact capPut_eq_skip seg decode f x y str style cluster remain w hstr
      hseg hcl hw

/-- Witness for C8: measured width 0 at an in-bounds coordinate; SetContent
stores the cluster at width 1 while Put skips it. -/
theorem C8_nonpositive_width_forced_witness :
    (0 : Int) ≤ 0 ∧
    (∃ sc, (fC8.SetContent (fun _ => 0) 0 0 'x' [] StyleDefault).cellAt 0 0
        = some sc ∧ sc.text = String.mk ['x'] ∧ sc.dw = 1 ∧ sc.cont = false) ∧
    capPut (fun _ => ("x", "", 0)) (fun _ => none) fC8 0 0 "x" StyleDefault
      = (fC8, "", 0) :=
  ⟨le_refl 0,
    (C8_nonpositive_width_forced (fun _ => 0) (fun _ => ("x", "", 0))
      (fun _ => none) fC8 0 0 'x' [] StyleDefault (by decide) (le_refl 0)
      (by decide) (le_refl 0) (by decide) "x" "x" "" 0 (by decide) rfl
      (by decide) (by decide)).1,
    (C8_nonpositive_width_forced (fun _ => 0) (fun _ => ("x", "", 0))
      (fun _ => none) fC8 0 0 'x' [] StyleDefault (by decide) (le_refl 0)
      (by decide) (le_refl 0) (by decide) "x" "x" "" 0 (by decide) rfl
      (by decide) (by decide)).2⟩

/-- Counterexample to C8 exactly as stated: `Put` of a zero-width cluster
does not store any cell — the target coordinate stays absent and the
returned width is 0, not 1. -/
theorem C8_nonpositive_width_forced_counterexample :
    (capPut (fun _ => ("x", "", 0)) (fun _ => none) fC8 0 0 "x"
      StyleDefault).1.cellAt 0 0 = none ∧
    (capPut (fun _ => ("x", "", 0)) (fun _ => none) fC8 0 0 "x"
      StyleDefault).2.2 = 0 ∧ (0 : Int) ≠ 1 := by
  refine ⟨by decide, by decide, by decide⟩

end Tview

namespace Tview

theorem putCellText_sigCoherent (f : frame) (x y : Int) (text : String)
    (st : Style) (dw : Nat) (cont : Bool) (leadX : Int) (hf : SigCoherent f) :
    SigCoherent (f.putCellText x y text st dw cont leadX) := by
  intro i
  unfold frame.putCellText; dsimp only
  split
  · exact hf i
  · dsimp only
    split
    · intro _; rfl
    · rw [markSpan_cells]
      split
      · split
        · dsimp only
          split
          · intro h0; exact absurd rfl h0
          · rw [markSpan_cells]; exact hf i
        · exact hf i
      · exact hf i

theorem putContinuations_sigCoherent (f : frame) (x y : Int) (st : Style)
    (leadX i : Int) (n : Nat) (hf : SigCoherent f) :
    SigCoherent (f.putContinuations x y st leadX i n) := by
  induction n generalizing f i with
  | zero => exact hf
  | succ n ih =>
    simp only [frame.putContinuations]
    exact ih _ _ (putCellText_sigCoherent _ _ _ _ _ _ _ _ hf)

theorem SetContent_sigCoherent (stringWidth : String → Int) (f : frame)
    (x y : Int) (primary : Char) (combining : List Char) (st : Style)
    (hf : SigCoherent f) :
    SigCoherent (f.SetContent stringWidth x y primary combining st) := by
  unfold frame.SetContent; dsimp only
  repeat' split
  all_goals exact putContinuations_sigCoherent _ _ _ _ _ _ _ (putCellText_sigCoherent _ _ _ _ _ _ _ _ hf)

theorem capPut_sigCoherent (seg : String → String × String × Int)
    (decode : String → Option (String × String)) (f : frame) (x y : Int)
    (str : String) (st : Style) (hf : SigCoherent f) :
    SigCoherent (capPut seg decode f x y str st).1 := by
  unfold capPut; dsimp only
  repeat' split
  all_goals (try exact hf)
  all_goals dsimp only
  all_goals exact putContinuations_sigCoherent _ _ _ _ _ _ _ (putCellText_sigCoherent _ _ _ _ _ _ _ _ hf)

theorem beginFrame_sigCoherent (f : frame) (hf : SigCoherent f) :
    SigCoherent f.beginFrame := by
  intro i
  unfold frame.beginFrame; dsimp only
  split
  · exact hf i
  · intro h0; exact absurd rfl h0

/-- C10 (confirmed): the signature-coherence invariant.  `SigCoherent` — a
cell with nonzero stored generation has `sig = cellSignature` of its own
fields — is established by `newFrame` and preserved by `putCellText`,
`SetContent`, `Put` (the capture screen), `Clear`, and `beginFrame`.  In
any frame satisfying it whose generation is nonzero, every present cell
(`cellAt` succeeds) stores the signature of its fields, exactly as the
claim states; and two coherent cells that agree field-wise have equal
signatures, which is what lets the `rowRangeSignature` row-skip agree with
field-wise cell equality.  (At generation 0 the claim's property can fail:
zero-value cells read as present with signature 0, as the claim itself
notes.) -/
theorem C10_signature_coherence :
    (∀ w h : Int, SigCoherent (newFrame w h)) ∧
    (∀ (f : frame) (x y : Int) (text : String) (st : Style) (dw : Nat)
      (cont : Bool) (leadX : Int), SigCoherent f →
      SigCoherent (f.putCellText x y text st dw cont leadX)) ∧
    (∀ (stringWidth : String → Int) (f : frame) (x y : Int) (primary : Char)
      (combining : List Char) (st : Style), SigCoherent f →
      SigCoherent (f.SetContent stringWidth x y primary combining st)) ∧
    (∀ (seg : String → String × String × Int)
      (decode : String → Option (String × String)) (f : frame) (x y : Int)
      (str : String) (st : Style), SigCoherent f →
      SigCoherent (capPut seg decode f x y str st).1) ∧
    (∀ f : frame, SigCoherent f → SigCoherent f.Clear) ∧
    (∀ f : frame, SigCoherent f → SigCoherent f.beginFrame) ∧
    (∀ (f : frame) (x y : Int) (c : cell), SigCoherent f → f.gen ≠ 0 →
      f.cellAt x y = some c →
      c.sig = cellSignature c.text c.style c.dw c.cont c.leadX) ∧
    (∀ c1 c2 : cell,
      c1.sig = cellSignature c1.text c1.style c1.dw c1.cont c1.leadX →
      c2.sig = cellSignature c2.text c2.style c2.dw c2.cont c2.leadX →
      c1.text = c2.text → c1.style = c2.style → c1.dw = c2.dw →
      c1.cont = c2.cont → c1.leadX = c2.leadX → c1.sig = c2.sig) := by
  refine ⟨?_, putCellText_sigCoherent, SetContent_sigCoherent,
    capPut_sigCoherent, ?_, beginFrame_sigCoherent, ?_, ?_⟩
  · intro w h i h0; exact absurd rfl h0
  · intro f hf; exact beginFrame_sigCoherent f hf
  · intro f x y c hf hg h
    obtain ⟨_, _, _, _, hc, hcg⟩ := cellAt_some_inv f x y c h
    have hco := hf (y * f.width + x) (by rw [hc, hcg]; exact hg)
    rw [hc] at hco
    exact hco
  · intro c1 c2 h1 h2 ht hs hd hc hl
    rw [h1, h2, ht, hs, hd, hc, hl]

/-- Witness for C10: a fresh frame is coherent, and a concrete write
preserves coherence. -/
theorem C10_signature_coherence_witness :
    SigCoherent (newFrame 1 1) ∧
    SigCoherent ((newFrame 1 1).putCellText 0 0 "a" StyleDefault 1 false (-1)) :=
  ⟨fun _ h0 => absurd rfl h0,
    C10_signature_coherence.2.1 (newFrame 1 1) 0 0 "a" StyleDefault 1 false
      (-1) (fun _ h0 => absurd rfl h0)⟩

end Tview

namespace Tview

theorem rowSpan_some_inv (f : frame) (y s e : Int)
    (h : f.rowSpan y = some (s, e)) :
    0 ≤ y ∧ y < f.height ∧ f.rowGen y = f.gen ∧
      s = f.rowStart y ∧ e = f.rowEnd y := by
  unfold frame.rowSpan at h
  split at h
  · exact absurd h (by simp)
  · split at h
    · exact absurd h (by simp)
    · rename_i hb hg
      obtain ⟨rfl, rfl⟩ := Prod.mk.injEq .. ▸ Option.some_inj.mp h
      exact ⟨by omega, by omega, not_ne_iff.mp hg, rfl, rfl⟩

theorem rowRangeSigAux_congr (fRow bRow : Int → cell) (fGen bGen : Nat)
    (n : Nat) (x : Int) (h : Nat)
    (hp : ∀ t : Int, x ≤ t → t < x + n →
      (((fRow t).gen = fGen) ↔ ((bRow t).gen = bGen)) ∧
      ((fRow t).gen = fGen → (fRow t).sig = (bRow t).sig)) :
    rowRangeSigAux fRow fGen n x h = rowRangeSigAux bRow bGen n x h := by
  induction n generalizing x h with
  | zero => rfl
  | succ n ih =>
    simp only [rowRangeSigAux]
    have hx := hp x (le_refl x) (by omega)
    have hmix :
        (if (fRow x).gen ≠ fGen then hashMixUint64 h 0
          else hashMixUint64 h (fRow x).sig) =
        (if (bRow x).gen ≠ bGen then hashMixUint64 h 0
          else hashMixUint64 h (bRow x).sig) := by
      by_cases hfp : (fRow x).gen = fGen
      · rw [if_neg (not_ne_iff.mpr hfp),
          if_neg (not_ne_iff.mpr (hx.1.mp hfp)), hx.2 hfp]
      · rw [if_pos hfp, if_pos (fun hb => hfp (hx.1.mpr hb))]
    rw [hmix]
    exact ih (x + 1) _ (fun t ht1 ht2 => hp t (by omega) (by omega))

theorem rowRangeSignature_congr (fRow bRow : Int → cell) (fGen bGen : Nat)
    (s e : Int)
    (hp : ∀ t : Int, s ≤ t → t < e →
      (((fRow t).gen = fGen) ↔ ((bRow t).gen = bGen)) ∧
      ((fRow t).gen = fGen → (fRow t).sig = (bRow t).sig)) :
    rowRangeSignature fRow fGen s e = rowRangeSignature bRow bGen s e := by
  unfold rowRangeSignature
  rw [rowRangeSigAux_congr fRow bRow fGen bGen (e - s).toNat s fnv64Offset
    (fun t ht1 ht2 => hp t ht1 (by omega))]

theorem unionSpan_bounds (front back : frame) (y s e : Int)
    (hw : front.width = back.width) (hh : front.height = back.height)
    (hf : SpanWF front) (hb : SpanWF back)
    (h : unionSpan front back y = some (s, e)) :
    0 ≤ y ∧ y < back.height ∧ 0 ≤ s ∧ e ≤ back.width := by
  have hfb : ∀ s0 e0, front.rowSpan y = some (s0, e0) →
      0 ≤ y ∧ y < back.height ∧ 0 ≤ s0 ∧ e0 ≤ back.width := by
    intro s0 e0 hsp
    obtain ⟨hy0, hyh, hg, rfl, rfl⟩ := rowSpan_some_inv front y s0 e0 hsp
    have := hf y.toNat (by omega) (by rw [Int.toNat_of_nonneg hy0]; exact hg)
    rw [Int.toNat_of_nonneg hy0] at this
    exact ⟨hy0, by omega, this.1, by rw [← hw]; exact this.2⟩
  have hbb : ∀ s0 e0, back.rowSpan y = some (s0, e0) →
      0 ≤ y ∧ y < back.height ∧ 0 ≤ s0 ∧ e0 ≤ back.width := by
    intro s0 e0 hsp
    obtain ⟨hy0, hyh, hg, rfl, rfl⟩ := rowSpan_some_inv back y s0 e0 hsp
    have := hb y.toNat (by omega) (by rw [Int.toNat_of_nonneg hy0]; exact hg)
    rw [Int.toNat_of_nonneg hy0] at this
    exact ⟨hy0, hyh, this.1, this.2⟩
  unfold unionSpan at h
  split at h
  · rename_i bs be fs fe hbs hfs
    obtain ⟨rfl, rfl⟩ := Prod.mk.injEq .. ▸ Option.some_inj.mp h
    obtain ⟨h1, h2, h3, h4⟩ := hbb bs be hbs
    obtain ⟨_, _, h5, h6⟩ := hfb fs fe hfs
    exact ⟨h1, h2, le_min h3 h5, max_le h4 h6⟩
  · rename_i bs be hbs hfs
    obtain ⟨rfl, rfl⟩ := Prod.mk.injEq .. ▸ Option.some_inj.mp h
    exact hbb bs be hbs
  · rename_i fs fe hbs hfs
    obtain ⟨rfl, rfl⟩ := Prod.mk.injEq .. ▸ Option.some_inj.mp h
    exact hfb fs fe hfs
  · exact absurd h (by simp)

theorem mem_rowsOf (h y : Int) : y ∈ rowsOf h ↔ 0 ≤ y ∧ y < h := by
  unfold rowsOf
  simp only [List.mem_map, List.mem_range, Int.ofNat_eq_natCast]
  constructor
  · rintro ⟨k, hk, rfl⟩
    omega
  · rintro ⟨hy0, hyh⟩
    exact ⟨y.toNat, by omega, by omega⟩

theorem diffRow_eq_nil_of_content (front back : frame) (spaces : String)
    (y : Int) (hw : front.width = back.width) (hh : front.height = back.height)
    (hf : SpanWF front) (hb : SpanWF back) (heq : ContentEq front back) :
    diffRow front back spaces y = ([], false) := by
  unfold diffRow
  cases huni : unionSpan front back y with
  | none => rfl
  | some se =>
    obtain ⟨s, e⟩ := se
    obtain ⟨hy0, hyh, hs0, hew⟩ := unionSpan_bounds front back y s e hw hh hf hb huni
    dsimp only
    split
    · rfl
    · rename_i hse
      rw [if_pos ?_]
      apply rowRangeSignature_congr
      intro t ht1 ht2
      have hx : t.toNat < back.width.toNat := by omega
      have hyn : y.toNat < back.height.toNat := by omega
      have := heq t.toNat hx y.toNat hyn
      rw [Int.toNat_of_nonneg (by omega : (0:Int) ≤ t),
        Int.toNat_of_nonneg hy0] at this
      exact ⟨this.1, fun hp => (this.2 hp).2.2.2.2.2⟩

theorem foldr_diffRows_nil (front back : frame) (spaces : String)
    (l : List Int) (h : ∀ y ∈ l, diffRow front back spaces y = ([], false)) :
    l.foldr (fun y acc =>
      { changed := (diffRow front back spaces y).2 || acc.changed,
        ops := (diffRow front back spaces y).1 ++ acc.ops })
      ({ changed := false, ops := [] } : BlitResult) =
      { changed := false, ops := [] } := by
  induction l with
  | nil => rfl
  | cons a l ih =>
    simp only [List.foldr_cons]
    rw [ih (fun y hy => h y (List.mem_cons_of_mem a hy)),
      h a (List.mem_cons_self a l)]
    rfl

theorem blitDiff_incremental (front back : frame) (spaces : String)
    (hca : back.clearAll = false) :
    blitDiff front back false spaces =
      (rowsOf back.height).foldr (fun y acc =>
        { changed := (diffRow front back spaces y).2 || acc.changed,
          ops := (diffRow front back spaces y).1 ++ acc.ops })
        { changed := false, ops := [] } := by
  unfold blitDiff
  rw [if_neg (by rw [hca]; exact Bool.false_ne_true), if_neg Bool.false_ne_true]

/-- C2 (confirmed): if front and back have equal dimensions and identical
contents — the same cells present in the current generation at every
in-bounds coordinate, with identical text, style, width, continuation flag,
lead column and stored signature, and the same cells absent — and both
frames' dirty spans are well-formed, then with back's full-clear flag unset
and forceRedraw false, `blitDiff` issues no terminal write, no clear, and
returns `changed = false`: every touched row short-circuits on the row
signature. -/
theorem C2_diff_minimality (front back : frame) (spaces : String)
    (hw : front.width = back.width) (hh : front.height = back.height)
    (hf : SpanWF front) (hb : SpanWF back) (hca : back.clearAll = false)
    (heq : ContentEq front back) :
    blitDiff front back false spaces = { changed := false, ops := [] } := by
  rw [blitDiff_incremental front back spaces hca]
  exact foldr_diffRows_nil front back spaces _ (fun y _ =>
    diffRow_eq_nil_of_content front back spaces y hw hh hf hb heq)

/-- Witness for C2: a concrete generation-1 frame diffed against itself
yields no writes and `changed = false`. -/
theorem C2_diff_minimality_witness :
    SpanWF fC5 ∧ fC5.clearAll = false ∧ ContentEq fC5 fC5 ∧
      blitDiff fC5 fC5 false "   " = { changed := false, ops := [] } :=
  ⟨by decide, by decide, by decide,
    C2_diff_minimality fC5 fC5 "   " rfl rfl (by decide) (by decide)
      (by decide) (by decide)⟩

end Tview

namespace Tview

theorem diffWalk_target (fRow bRow : Int → cell) (fGen bGen : Nat)
    (width y e : Int) (spaces : String) (n : Nat) (x : Int) :
    ∀ op ∈ (diffWalk fRow bRow fGen bGen width y e spaces n x).1,
      ∃ t : Int, opTarget op = some (t, y) ∧
        ((fRow t).gen = fGen ∨ (bRow t).gen = bGen) := by
  induction n generalizing x with
  | zero => intro op hop; exact absurd hop (by simp [diffWalk])
  | succ n ih =>
    intro op hop
    simp only [diffWalk] at hop
    split at hop
    · exact absurd hop (by simp)
    · try dsimp only at hop
      split at hop
      · exact ih _ op hop
      · rename_i hno
        split at hop
        · rename_i hcont
          split at hop
          · exact ih _ op hop
          · rcases List.mem_cons.mp hop with rfl | hmem
            · exact ⟨x, rfl, Or.inr (of_decide_eq_true hcont.1)⟩
            · exact ih _ op hmem
        · split at hop
          · exact ih _ op hop
          · have hor : (fRow x).gen = fGen ∨ (bRow x).gen = bGen := by
              by_cases hf' : (fRow x).gen = fGen
              · exact Or.inl hf'
              · by_cases hb' : (bRow x).gen = bGen
                · exact Or.inr hb'
                · exact absurd ⟨decide_eq_false hf', decide_eq_false hb'⟩ hno
            split at hop
            · rcases List.mem_cons.mp hop with rfl | hmem
              · exact ⟨x, rfl, hor⟩
              · exact ih _ op hmem
            · split at hop
              · rcases List.mem_cons.mp hop with rfl | hmem
                · exact ⟨x, rfl, hor⟩
                · exact ih _ op hmem
              · rcases List.mem_cons.mp hop with rfl | hmem
                · exact ⟨x, rfl, hor⟩
                · exact ih _ op hmem

theorem diffRow_target (front back : frame) (spaces : String) (y : Int) :
    ∀ op ∈ (diffRow front back spaces y).1,
      ∃ t : Int, opTarget op = some (t, y) ∧
        ((front.cells (y * back.width + t)).gen = front.gen ∨
          (back.cells (y * back.width + t)).gen = back.gen) := by
  intro op hop
  unfold diffRow at hop
  split at hop
  · exact absurd hop (by simp)
  · split at hop
    · exact absurd hop (by simp)
    · dsimp only at hop
      split at hop
      · exact absurd hop (by simp)
      · exact diffWalk_target _ _ _ _ _ _ _ _ _ _ op hop

theorem foldr_diffRows_mem (front back : frame) (spaces : String)
    (l : List Int) (op : ScreenOp)
    (hop : op ∈ (l.foldr (fun y acc =>
      ({ changed := (diffRow front back spaces y).2 || acc.changed,
         ops := (diffRow front back spaces y).1 ++ acc.ops } : BlitResult))
      { changed := false, ops := [] }).ops) :
    ∃ y ∈ l, op ∈ (diffRow front back spaces y).1 := by
  induction l with
  | nil => exact absurd hop (by simp)
  | cons a l ih =>
    simp only [List.foldr_cons] at hop
    rcases List.mem_append.mp hop with hmem | hmem
    · exact ⟨a, List.mem_cons_self a l, hmem⟩
    · obtain ⟨y, hy, hmem'⟩ := ih hmem
      exact ⟨y, List.mem_cons_of_mem a hy, hmem'⟩

/-- C9 (corrected): in incremental diff mode, for a column `c` of a row's
candidate dirty range at which both the front and the back cell are absent,
`blitDiff` emits no terminal write addressed at `(c, y)`: every emitted
write targets a column where at least one of the two frames has a present
cell.  (A batched blank-fill run that starts at an earlier front-present
column may still sweep over column `c`; the claim's coverage reading fails,
see the counterexample.) -/
theorem C9_both_absent_no_write (front back : frame) (spaces : String)
    (c ys : Int) (hca : back.clearAll = false)
    (hrange : match unionSpan front back ys with
      | some (s, e) => s ≤ c ∧ c < e
      | none => False)
    (hfa : (front.cells (ys * back.width + c)).gen ≠ front.gen)
    (hba : (back.cells (ys * back.width + c)).gen ≠ back.gen) :
    ∀ op ∈ (blitDiff front back false spaces).ops,
      opTarget op ≠ some (c, ys) := by
  intro op hop htarget
  rw [blitDiff_incremental front back spaces hca] at hop
  obtain ⟨y, _, hmem⟩ := foldr_diffRows_mem front back spaces _ op hop
  obtain ⟨t, hT, hor⟩ := diffRow_target front back spaces y op hmem
  rw [hT] at htarget
  obtain ⟨rfl, rfl⟩ := Prod.mk.injEq .. ▸ Option.some_inj.mp htarget
  rcases hor with h | h
  · exact hfa h
  · exact hba h

/-- Witness for C9: the concrete scenario (front present only at column 0,
back fully absent, dirty range `[0, 2)`); the single emitted blank run is
addressed at column 0, and no emitted write is addressed at the
both-absent column 1. -/
theorem C9_both_absent_no_write_witness :
    fC9b.clearAll = false ∧
    (fC9f.cells (0 * fC9b.width + 1)).gen ≠ fC9f.gen ∧
    (fC9b.cells (0 * fC9b.width + 1)).gen ≠ fC9b.gen ∧
    opTarget (ScreenOp.putStrStyled 0 0 "  " StyleDefault) ≠ some (1, 0) :=
  ⟨rfl, by decide, by decide,
    C9_both_absent_no_write fC9f fC9b "  " 1 0 rfl ⟨by decide, by decide⟩
      (by decide) (by decide) (ScreenOp.putStrStyled 0 0 "  " StyleDefault)
      (by decide)⟩

/-- Counterexample to C9 exactly as stated: in the witness scenario the
blitter emits one blank-fill write `PutStrStyled(0, 0, "  ")`, a two-column
run that covers the both-absent column 1 — so a write IS emitted at a
column where both cells are absent, merely batched into a run that starts
at the front-present column 0. -/
theorem C9_both_absent_no_write_counterexample :
    blitDiff fC9f fC9b false "  " =
      { changed := true, ops := [ScreenOp.putStrStyled 0 0 "  " StyleDefault] } ∧
    (fC9f.cells (0 * fC9b.width + 1)).gen ≠ fC9f.gen ∧
    (fC9b.cells (0 * fC9b.width + 1)).gen ≠ fC9b.gen ∧
    (match unionSpan fC9f fC9b 0 with
      | some (s, e) => s ≤ 1 ∧ (1 : Int) < e
      | none => False) ∧
    opSpansColAscii (ScreenOp.putStrStyled 0 0 "  " StyleDefault) 1 0 = true := by
  refine ⟨by decide, by decide, by decide, ⟨by decide, by decide⟩, by decide⟩

end Tview

namespace Tview

/-! String facts used by the terminal simulation, stated through `data`. -/

theorem str_append_empty (s : String) : s ++ "" = s := by
  cases s with
  | mk l =>
    show String.mk (l ++ []) = String.mk l
    rw [List.append_nil]

theorem str_eq_empty_of_data (s : String) (h : s.data = []) : s = "" := by
  cases s with
  | mk l => cases h; rfl

theorem str_ne_empty_of_data (s : String) (h : s.data ≠ []) : s ≠ "" :=
  fun he => h (congrArg String.data he)

theorem str_append_ne_empty_left (a b : String) (h : a ≠ "") : a ++ b ≠ "" := by
  apply str_ne_empty_of_data
  show a.data ++ b.data ≠ []
  intro hx
  rcases List.append_eq_nil.mp hx with ⟨h1, _⟩
  exact h (str_eq_empty_of_data a h1)

theorem str_length_append (a b : String) :
    (a ++ b).length = a.length + b.length := by
  show (a.data ++ b.data).length = a.data.length + b.data.length
  exact List.length_append a.data b.data

theorem str_length_pos_of_ne (s : String) (h : s ≠ "") : 1 ≤ s.length := by
  cases s with
  | mk l =>
    cases l with
    | nil => exact absurd rfl h
    | cons c l' => exact Nat.succ_le_succ (Nat.zero_le _)

theorem str_eq_empty_of_length (s : String) (h : s.length = 0) : s = "" :=
  str_eq_empty_of_data _ (List.eq_nil_of_length_eq_zero h)

/-- Writing `k` spaces from `(x, y)` blanks columns `[x, x+k)` of row `y` of
the simulated terminal and touches nothing else. -/
theorem termPutStr_replicate (seg : String → String × String × Int)
    (hseg : ∀ r : String, seg (" " ++ r) = (" ", r, 1)) (y : Int) (st : Style) :
    ∀ (k fuel : Nat), k ≤ fuel → ∀ (t : Terminal) (x a b : Int),
      termPutStr seg y st fuel t x (String.mk (List.replicate k ' ')) a b =
        if b = y ∧ x ≤ a ∧ a < x + (k : Int) then TermCell.glyph " " st
        else t a b := by
  intro k
  induction k with
  | zero =>
    intro fuel _ t x a b
    have h0 : String.mk (List.replicate 0 ' ') = "" := rfl
    rw [h0]
    have hL : termPutStr seg y st fuel t x "" = t := by
      cases fuel with
      | zero => rfl
      | succ n => simp [termPutStr]
    rw [hL, if_neg]
    intro hcon
    omega
  | succ k ih =>
    intro fuel hfuel t x a b
    cases fuel with
    | zero => omega
    | succ m =>
      have hsplit : String.mk (List.replicate (k + 1) ' ')
          = " " ++ String.mk (List.replicate k ' ') := rfl
      rw [hsplit]
      have hne : (" " ++ String.mk (List.replicate k ' ')) ≠ "" :=
        str_append_ne_empty_left _ _
          (by intro h; exact absurd (congrArg String.data h) (by simp))
      simp only [termPutStr]
      rw [if_neg hne, hseg (String.mk (List.replicate k ' '))]
      dsimp only
      simp only [max_self]
      rw [ih m (by omega) (termPut t x y " " st 1) (x + 1) a b]
      simp only [termPut]
      push_cast
      split_ifs <;> first | rfl | omega

end Tview

namespace Tview

/-- Writing one cluster of positive width `w` puts the glyph at `(x, y)` and
continuation markers on `(x, x+w)`, touching nothing else. -/
theorem termPutStr_single (seg : String → String × String × Int)
    (y : Int) (st : Style) (text : String) (w : Int)
    (hne : text ≠ "") (hw : 1 ≤ w)
    (hseg : ∀ r : String, seg (text ++ r) = (text, r, w))
    (fuel : Nat) (hfuel : 1 ≤ fuel) (t : Terminal) (x a b : Int) :
    termPutStr seg y st fuel t x text a b =
      if b = y ∧ a = x then TermCell.glyph text st
      else if b = y ∧ x < a ∧ a < x + w then TermCell.contc x
      else t a b := by
  cases fuel with
  | zero => omega
  | succ m =>
    have hseg0 : seg text = (text, "", w) := by
      have h := hseg ""
      rwa [str_append_empty] at h
    simp only [termPutStr]
    rw [if_neg hne, hseg0]
    dsimp only
    have hmax : max w 1 = w := by omega
    rw [hmax]
    have hL : termPutStr seg y st m (termPut t x y text st w) (x + w) "" =
        termPut t x y text st w := by
      cases m with
      | zero => rfl
      | succ m' => simp [termPutStr]
    rw [hL]
    rfl

/-- `spaces[:k]` is `k` spaces when the scratch string is all spaces and long
enough. -/
theorem spacesTake_eq_replicate (spaces : String)
    (hsp : spaces.data = List.replicate spaces.length ' ')
    (k : Nat) (hk : k ≤ spaces.length) :
    spacesTake spaces k = String.mk (List.replicate k ' ') := by
  unfold spacesTake
  rw [hsp]
  have h1 : List.take k (List.replicate spaces.length ' ')
      = List.replicate (min k spaces.length) ' ' := by
    simp [List.take_replicate]
  rw [h1, min_eq_left hk]

theorem replicate_str_length (k : Nat) :
    (String.mk (List.replicate k ' ')).length = k := by
  show (List.replicate k ' ').length = k
  exact List.length_replicate k ' '

/-- The text-run loop ignores its accumulator except to append to it. -/
theorem textRun_acc (fRow bRow : Int → cell) (fGen bGen : Nat) (st : Style)
    (e : Int) :
    ∀ (n : Nat) (x : Int) (acc : String),
      textRun fRow bRow fGen bGen st e n x acc =
        ((textRun fRow bRow fGen bGen st e n x "").1,
          acc ++ (textRun fRow bRow fGen bGen st e n x "").2) := by
  intro n
  induction n with
  | zero =>
    intro x acc
    show (x, acc) = (x, acc ++ "")
    rw [str_append_empty]
  | succ n ih =>
    intro x acc
    simp only [textRun]
    split
    · show (x, acc) = (x, acc ++ "")
      rw [str_append_empty]
    · split
      · show (x, acc) = (x, acc ++ "")
        rw [str_append_empty]
      · split
        · show (x, acc) = (x, acc ++ "")
          rw [str_append_empty]
        · have h0 : ("" ++ (bRow x).text) = (bRow x).text := rfl
          rw [h0, ih (x + 1) (acc ++ (bRow x).text), ih (x + 1) ((bRow x).text)]
          dsimp only
          rw [Prod.mk.injEq]
          refine ⟨rfl, ?_⟩
          cases acc with
          | mk la =>
            cases (bRow x).text with
            | mk lb =>
              cases (textRun fRow bRow fGen bGen st e n (x + 1) "").2 with
              | mk lc =>
                show String.mk (la ++ lb ++ lc) = String.mk (la ++ (lb ++ lc))
                rw [List.append_assoc]

/-- Bounds and per-column facts for the text run: it never moves left or past
the range end, and every column it spans holds a present back cell of width 1
in the run style. -/
theorem textRun_props (fRow bRow : Int → cell) (fGen bGen : Nat) (st : Style)
    (e : Int) :
    ∀ (n : Nat) (x : Int), x ≤ e →
      x ≤ (textRun fRow bRow fGen bGen st e n x "").1 ∧
      (textRun fRow bRow fGen bGen st e n x "").1 ≤ e ∧
      ∀ col : Int, x ≤ col → col < (textRun fRow bRow fGen bGen st e n x "").1 →
        (bRow col).gen = bGen ∧ (bRow col).style = st ∧ (bRow col).dw = 1 := by
  intro n
  induction n with
  | zero =>
    intro x hx
    exact ⟨le_refl _, hx,
      fun col h1 h2 => absurd (lt_of_le_of_lt h1 h2) (lt_irrefl _)⟩
  | succ n ih =>
    intro x hx
    simp only [textRun]
    split
    · exact ⟨le_refl _, hx,
        fun col h1 h2 => absurd (lt_of_le_of_lt h1 h2) (lt_irrefl _)⟩
    · rename_i hxe
      split
      · exact ⟨le_refl _, hx,
          fun col h1 h2 => absurd (lt_of_le_of_lt h1 h2) (lt_irrefl _)⟩
      · rename_i hC1
        split
        · exact ⟨le_refl _, hx,
            fun col h1 h2 => absurd (lt_of_le_of_lt h1 h2) (lt_irrefl _)⟩
        · have h0 : ("" ++ (bRow x).text) = (bRow x).text := rfl
          rw [h0, textRun_acc fRow bRow fGen bGen st e n (x + 1) ((bRow x).text)]
          dsimp only
          obtain ⟨i1, i2, i3⟩ := ih (x + 1) (by omega)
          refine ⟨by omega, i2, ?_⟩
          intro col h1 h2
          by_cases hcx : col = x
          · subst hcx
            simp only [not_or, ne_eq, decide_eq_false_iff_not, not_not] at hC1
            exact ⟨hC1.1, hC1.2.1, hC1.2.2⟩
          · exact i3 col (by omega) h2

/-- Bounds and per-column facts for the clear run: it never moves left or
past the range end, and every column it spans is back-absent. -/
theorem clearRunEnd_props (fRow bRow : Int → cell) (fGen bGen : Nat) (e : Int) :
    ∀ (n : Nat) (x : Int), x ≤ e →
      x ≤ clearRunEnd fRow bRow fGen bGen e n x ∧
      clearRunEnd fRow bRow fGen bGen e n x ≤ e ∧
      ∀ col : Int, x ≤ col → col < clearRunEnd fRow bRow fGen bGen e n x →
        (bRow col).gen ≠ bGen := by
  intro n
  induction n with
  | zero =>
    intro x hx
    exact ⟨le_refl _, hx,
      fun col h1 h2 => absurd (lt_of_le_of_lt h1 h2) (lt_irrefl _)⟩
  | succ n ih =>
    intro x hx
    simp only [clearRunEnd]
    split
    · exact ⟨le_refl _, hx,
        fun col h1 h2 => absurd (lt_of_le_of_lt h1 h2) (lt_irrefl _)⟩
    · rename_i hxe
      split
      · exact ⟨le_refl _, hx,
          fun col h1 h2 => absurd (lt_of_le_of_lt h1 h2) (lt_irrefl _)⟩
      · rename_i hbok
        split
        · obtain ⟨i1, i2, i3⟩ := ih (x + 1) (by omega)
          refine ⟨by omega, i2, ?_⟩
          intro col h1 h2
          by_cases hcx : col = x
          · subst hcx
            simp only [decide_eq_true_eq] at hbok
            exact hbok
          · exact i3 col (by omega) h2
        · split
          · exact ⟨le_refl _, hx,
              fun col h1 h2 => absurd (lt_of_le_of_lt h1 h2) (lt_irrefl _)⟩
          · obtain ⟨i1, i2, i3⟩ := ih (x + 1) (by omega)
            refine ⟨by omega, i2, ?_⟩
            intro col h1 h2
            by_cases hcx : col = x
            · subst hcx
              simp only [decide_eq_true_eq] at hbok
              exact hbok
            · exact i3 col (by omega) h2

/-- When the clear run starts at a front-present, back-absent column it makes
progress: the run end is strictly to the right. -/
theorem clearRunEnd_advance (fRow bRow : Int → cell) (fGen bGen : Nat) (e : Int)
    (n : Nat) (x : Int) (hx : x < e)
    (hb : (bRow x).gen ≠ bGen) (hf : (fRow x).gen = fGen) :
    x + 1 ≤ clearRunEnd fRow bRow fGen bGen e (n + 1) x := by
  simp only [clearRunEnd]
  rw [if_neg (by omega), if_neg (by simp [hb]), if_neg (by simp [hf]),
    if_neg (by simp [cellsEqual, hf, hb])]
  exact (clearRunEnd_props fRow bRow fGen bGen e n (x + 1) (by omega)).1

end Tview

namespace Tview

/-- When the text run starts at a present width-1 back cell that differs
from the front cell in style, width, or text, it makes progress. -/
theorem textRun_advance (fRow bRow : Int → cell) (fGen bGen : Nat) (e : Int)
    (n : Nat) (x : Int) (hx : x < e)
    (hb : (bRow x).gen = bGen) (hdw : (bRow x).dw = 1)
    (hstop : ¬((fRow x).gen = fGen ∧ (fRow x).style = (bRow x).style ∧
      (fRow x).dw = (bRow x).dw ∧ (fRow x).text = (bRow x).text)) :
    x + 1 ≤ (textRun fRow bRow fGen bGen (bRow x).style e (n + 1) x "").1 := by
  have hg1 : ¬(decide ((bRow x).gen = bGen) = false ∨
      (bRow x).style ≠ (bRow x).style ∨ (bRow x).dw ≠ 1) := by
    simp [hb, hdw]
  have hg2 : ¬(decide ((fRow x).gen = fGen) = true ∧
      (fRow x).style = (bRow x).style ∧ (fRow x).dw = (bRow x).dw ∧
      (fRow x).text = (bRow x).text) := by
    simpa using hstop
  simp only [textRun]
  rw [if_neg (by omega), if_neg hg1, if_neg hg2]
  have h0 : ("" ++ (bRow x).text) = (bRow x).text := rfl
  rw [h0, textRun_acc fRow bRow fGen bGen (bRow x).style e n (x + 1)
    ((bRow x).text)]
  exact (textRun_props fRow bRow fGen bGen (bRow x).style e n (x + 1)
    (by omega)).1

/-- Terminal effect of writing the accumulated text-run string at the run
start: every column the run spans shows its back cell's glyph in the run
style, and nothing else changes. -/
theorem textRun_effect (seg : String → String × String × Int)
    (fRow bRow : Int → cell) (fGen bGen : Nat) (st : Style) (e y : Int) :
    ∀ (n : Nat) (x : Int), x ≤ e →
      (∀ col : Int, x ≤ col → col < e → (bRow col).gen = bGen →
        (bRow col).dw = 1 → (bRow col).text ≠ "" ∧
        ∀ r : String, seg ((bRow col).text ++ r) = ((bRow col).text, r, 1)) →
      ∀ (fuel : Nat) (t : Terminal),
        (textRun fRow bRow fGen bGen st e n x "").2.length ≤ fuel →
        ∀ a b : Int,
          termPutStr seg y st fuel t x
              (textRun fRow bRow fGen bGen st e n x "").2 a b =
            if b = y ∧ x ≤ a ∧ a < (textRun fRow bRow fGen bGen st e n x "").1
            then TermCell.glyph (bRow a).text st else t a b := by
  intro n
  induction n with
  | zero =>
    intro x hx hcells fuel t hfuel a b
    have h2 : (textRun fRow bRow fGen bGen st e 0 x "").2 = "" := rfl
    have h1 : (textRun fRow bRow fGen bGen st e 0 x "").1 = x := rfl
    rw [h2, h1]
    have hL : termPutStr seg y st fuel t x "" = t := by
      cases fuel with
      | zero => rfl
      | succ m => simp [termPutStr]
    rw [hL, if_neg (by omega)]
  | succ n ih =>
    intro x hx hcells fuel t hfuel a b
    simp only [textRun] at hfuel ⊢
    split
    · dsimp only
      have hL : termPutStr seg y st fuel t x "" = t := by
        cases fuel with
        | zero => rfl
        | succ m => simp [termPutStr]
      rw [hL, if_neg (by omega)]
    · rename_i hxe
      split
      · dsimp only
        have hL : termPutStr seg y st fuel t x "" = t := by
          cases fuel with
          | zero => rfl
          | succ m => simp [termPutStr]
        rw [hL, if_neg (by omega)]
      · rename_i hC1
        split
        · dsimp only
          have hL : termPutStr seg y st fuel t x "" = t := by
            cases fuel with
            | zero => rfl
            | succ m => simp [termPutStr]
          rw [hL, if_neg (by omega)]
        · rename_i hC2
          rw [if_neg hxe, if_neg hC1, if_neg hC2] at hfuel
          have h0 : ("" ++ (bRow x).text) = (bRow x).text := rfl
          rw [h0, textRun_acc fRow bRow fGen bGen st e n (x + 1)
            ((bRow x).text)] at hfuel ⊢
          dsimp only at hfuel ⊢
          have hC1' := hC1
          simp only [not_or, ne_eq, decide_eq_false_iff_not, not_not] at hC1'
          obtain ⟨hbx, hstx, hdwx⟩ := hC1'
          obtain ⟨hnex, hsegx⟩ := hcells x (le_refl x) (by omega) hbx hdwx
          have hsne : ((bRow x).text ++
              (textRun fRow bRow fGen bGen st e n (x + 1) "").2) ≠ "" :=
            str_append_ne_empty_left _ _ hnex
          have hlen : ((bRow x).text ++
              (textRun fRow bRow fGen bGen st e n (x + 1) "").2).length =
              (bRow x).text.length +
              (textRun fRow bRow fGen bGen st e n (x + 1) "").2.length :=
            str_length_append _ _
          have hpos : 1 ≤ (bRow x).text.length := str_length_pos_of_ne _ hnex
          cases fuel with
          | zero => rw [hlen] at hfuel; omega
          | succ m =>
            simp only [termPutStr]
            rw [if_neg hsne,
              hsegx ((textRun fRow bRow fGen bGen st e n (x + 1) "").2)]
            dsimp only
            simp only [max_self]
            have hX : x + 1 ≤ (textRun fRow bRow fGen bGen st e n (x + 1) "").1 :=
              (textRun_props fRow bRow fGen bGen st e n (x + 1) (by omega)).1
            rw [ih (x + 1) (by omega)
              (fun col h1 h2 => hcells col (by omega) h2) m
              (termPut t x y (bRow x).text st 1)
              (by rw [hlen] at hfuel; omega) a b]
            simp only [termPut]
            split_ifs <;> first | rfl | omega | simp_all

end Tview

namespace Tview

/-- Under the row invariant every present continuation cell is covered by
its lead, so the blitter's defensive orphan check never fires. -/
theorem covered_of_rowinv (seg : String → String × String × Int)
    (row : Int → cell) (gen : Nat) (width : Int)
    (hinv : RowInv seg row gen width) (x : Int)
    (h0 : 0 ≤ x) (hw : x < width) (hg : (row x).gen = gen)
    (hc : (row x).cont = true) :
    isContinuationCoveredByLead row width gen x = true := by
  obtain ⟨htext, hdw, hl0, hlx, hlg, hlc, hldw, hcov⟩ :=
    hinv.cont_ok x h0 hw hg hc
  simp only [isContinuationCoveredByLead]
  rw [if_neg (by omega), if_neg (by simp [hg, hc]), if_neg (by omega),
    if_neg (by simp [hlg, hlc]; omega)]
  simp only [decide_eq_true_eq]
  exact hcov

theorem renderRow_absent (row : Int → cell) (gen : Nat) (width x : Int)
    (h : (row x).gen ≠ gen) :
    renderRow row gen width x = TermCell.glyph " " StyleDefault := by
  unfold renderRow
  rw [if_pos h]

theorem renderRow_lead (row : Int → cell) (gen : Nat) (width x : Int)
    (hg : (row x).gen = gen) (hc : (row x).cont = false) :
    renderRow row gen width x = TermCell.glyph (row x).text (row x).style := by
  unfold renderRow
  rw [if_neg (by simp [hg]), if_neg (by simp [hc])]

theorem renderRow_cont (seg : String → String × String × Int)
    (row : Int → cell) (gen : Nat) (width : Int)
    (hinv : RowInv seg row gen width) (x : Int)
    (h0 : 0 ≤ x) (hw : x < width) (hg : (row x).gen = gen)
    (hc : (row x).cont = true) :
    renderRow row gen width x = TermCell.contc (row x).leadX := by
  unfold renderRow
  rw [if_neg (by simp [hg]), if_pos hc,
    if_pos (covered_of_rowinv seg row gen width hinv x h0 hw hg hc)]

/-- Two invariant rows with matching presence and matching fields at a
column render identically there. -/
theorem renderRow_eq_of_fields (seg : String → String × String × Int)
    (fRow bRow : Int → cell) (fGen bGen : Nat) (width : Int)
    (hfi : RowInv seg fRow fGen width) (hbi : RowInv seg bRow bGen width)
    (x : Int) (h0 : 0 ≤ x) (hw : x < width)
    (hiff : (fRow x).gen = fGen ↔ (bRow x).gen = bGen)
    (hfields : (fRow x).gen = fGen →
      (fRow x).text = (bRow x).text ∧ (fRow x).style = (bRow x).style ∧
      (fRow x).dw = (bRow x).dw ∧ (fRow x).cont = (bRow x).cont ∧
      (fRow x).leadX = (bRow x).leadX) :
    renderRow fRow fGen width x = renderRow bRow bGen width x := by
  by_cases hf : (fRow x).gen = fGen
  · have hb := hiff.mp hf
    obtain ⟨ht, hs, hd, hco, hl⟩ := hfields hf
    cases hcf : (fRow x).cont with
    | false =>
      rw [renderRow_lead fRow fGen width x hf hcf,
        renderRow_lead bRow bGen width x hb (by rw [← hco]; exact hcf),
        ht, hs]
    | true =>
      rw [renderRow_cont seg fRow fGen width hfi x h0 hw hf hcf,
        renderRow_cont seg bRow bGen width hbi x h0 hw hb
          (by rw [← hco]; exact hcf), hl]
  · have hb : (bRow x).gen ≠ bGen := fun h => hf (hiff.mpr h)
    rw [renderRow_absent fRow fGen width x hf,
      renderRow_absent bRow bGen width x hb]

/-- Stepping the processed-prefix description of the walk invariant across
a jump from `x` to `x2`. -/
theorem walkI1_step (bRow : Int → cell) (bGen : Nat) (width y : Int)
    (s0 x x2 : Int) (t t1 : Terminal)
    (hI1 : ∀ col : Int, s0 ≤ col → col < x →
      t col y = renderRow bRow bGen width col)
    (hbelow : ∀ col : Int, s0 ≤ col → col < x → t1 col y = t col y)
    (hmid : ∀ col : Int, x ≤ col → col < x2 →
      t1 col y = renderRow bRow bGen width col) :
    ∀ col : Int, s0 ≤ col → col < x2 →
      t1 col y = renderRow bRow bGen width col := by
  intro col h1 h2
  rcases lt_or_le col x with h | h
  · rw [hbelow col h1 h, hI1 col h1 h]
  · exact hmid col h h2

/-- Stepping the unprocessed-suffix description of the walk invariant across
a jump from `x` to `x2`: suffix columns either keep their terminal content
and gain no newly processed lead, or are freshly covered continuation
columns already showing the back frame. -/
theorem walkI2_step (fRow bRow : Int → cell) (fGen bGen : Nat)
    (width y e : Int) (x x2 : Int) (hxx : x ≤ x2) (t t1 : Terminal)
    (hI2 : ∀ col : Int, x ≤ col → col < e →
      t col y = if (bRow col).gen = bGen ∧ (bRow col).cont = true ∧
          (bRow col).leadX < x
        then renderRow bRow bGen width col else renderRow fRow fGen width col)
    (hcols : ∀ col : Int, x2 ≤ col → col < e →
      (t1 col y = t col y ∧ ((bRow col).gen = bGen → (bRow col).cont = true →
        ¬(x ≤ (bRow col).leadX ∧ (bRow col).leadX < x2))) ∨
      ((bRow col).gen = bGen ∧ (bRow col).cont = true ∧
        x ≤ (bRow col).leadX ∧ (bRow col).leadX < x2 ∧
        t1 col y = renderRow bRow bGen width col)) :
    ∀ col : Int, x2 ≤ col → col < e →
      t1 col y = if (bRow col).gen = bGen ∧ (bRow col).cont = true ∧
          (bRow col).leadX < x2
        then renderRow bRow bGen width col else renderRow fRow fGen width col := by
  intro col h1 h2
  rcases hcols col h1 h2 with ⟨heq, hnod⟩ | ⟨hg, hc, hl1, hl2, hren⟩
  · rw [heq, hI2 col (by omega) h2]
    by_cases hcond : (bRow col).gen = bGen ∧ (bRow col).cont = true ∧
        (bRow col).leadX < x2
    · rw [if_pos hcond]
      obtain ⟨hg, hc, hl⟩ := hcond
      have hlt : (bRow col).leadX < x := by
        rcases lt_or_le (bRow col).leadX x with h | h
        · exact h
        · exact absurd ⟨h, hl⟩ (hnod hg hc)
      rw [if_pos ⟨hg, hc, hlt⟩]
    · rw [if_neg hcond,
        if_neg (fun hold => hcond
          ⟨hold.1, hold.2.1, lt_of_lt_of_le hold.2.2 hxx⟩)]
  · rw [hren, if_pos ⟨hg, hc, hl2⟩]

end Tview

namespace Tview

theorem applyOps_cons (seg : String → String × String × Int) (t : Terminal)
    (op : ScreenOp) (l : List ScreenOp) :
    applyOps seg t (op :: l) = applyOps seg (applyOp seg t op) l := rfl

theorem applyOps_nil (seg : String → String × String × Int) (t : Terminal) :
    applyOps seg t [] = t := rfl

/-- What `cellsEqual = true` gives: matching presence, and matching visible
fields when present. -/
theorem cellsEqual_true_elim (a b : cell) (aOK bOK : Bool)
    (h : cellsEqual a aOK b bOK = true) :
    (aOK = bOK) ∧ (aOK = true →
      a.text = b.text ∧ a.style = b.style ∧ a.dw = b.dw ∧ a.cont = b.cont ∧
      a.leadX = b.leadX) := by
  unfold cellsEqual at h
  by_cases h1 : aOK ≠ bOK
  · rw [if_pos h1] at h
    exact absurd h (by decide)
  · rw [if_neg h1] at h
    push_neg at h1
    refine ⟨h1, fun hT => ?_⟩
    rw [if_neg (by simp [hT])] at h
    by_cases h2 : a.text ≠ b.text ∨ a.style ≠ b.style ∨ a.dw ≠ b.dw ∨
        a.cont ≠ b.cont ∨ a.leadX ≠ b.leadX
    · rw [if_pos h2] at h
      exact absurd h (by decide)
    · push_neg at h2
      exact ⟨h2.1, h2.2.1, h2.2.2.1, h2.2.2.2.1, h2.2.2.2.2⟩

/-- Two present cells with matching visible fields compare equal. -/
theorem cellsEqual_true_intro (a b : cell)
    (h : a.text = b.text ∧ a.style = b.style ∧ a.dw = b.dw ∧ a.cont = b.cont ∧
      a.leadX = b.leadX) :
    cellsEqual a true b true = true := by
  unfold cellsEqual
  rw [if_neg (by simp), if_neg (by simp),
    if_neg (by simp [h.1, h.2.1, h.2.2.1, h.2.2.2.1, h.2.2.2.2])]

/-- Correctness of the incremental per-row walk.  Starting from a terminal
whose processed prefix `[s0, x)` already shows the back row and whose
unprocessed suffix `[x, e)` still shows the front row (except continuation
columns whose lead was already processed, which show the back row), applying
the emitted writes makes the whole range `[s0, e)` show the back row, and
changes nothing outside row `y`, left of `s0`, or in `[e, width)`. -/
theorem diffWalk_correct (seg : String → String × String × Int)
    (fRow bRow : Int → cell) (fGen bGen : Nat) (width y e s0 : Int)
    (spaces : String)
    (hfi : RowInv seg fRow fGen width) (hbi : RowInv seg bRow bGen width)
    (he : e ≤ width) (hs00 : 0 ≤ s0)
    (hsp : spaces.data = List.replicate spaces.length ' ')
    (hspl : width ≤ (spaces.length : Int))
    (hsegsp : ∀ r : String, seg (" " ++ r) = (" ", r, 1))
    (hbspan : ∀ col : Int, 0 ≤ col → col < width → (bRow col).gen = bGen →
      s0 ≤ col ∧ col < e) :
    ∀ (n : Nat) (x : Int) (t : Terminal), s0 ≤ x → (e - x).toNat ≤ n →
      (∀ col : Int, s0 ≤ col → col < x →
        t col y = renderRow bRow bGen width col) →
      (∀ col : Int, x ≤ col → col < e →
        t col y = if (bRow col).gen = bGen ∧ (bRow col).cont = true ∧
            (bRow col).leadX < x
          then renderRow bRow bGen width col
          else renderRow fRow fGen width col) →
      (∀ col : Int, s0 ≤ col → col < e →
        applyOps seg t (diffWalk fRow bRow fGen bGen width y e spaces n x).1
          col y = renderRow bRow bGen width col) ∧
      (∀ a b : Int, b ≠ y ∨ a < s0 ∨ (e ≤ a ∧ a < width) →
        applyOps seg t (diffWalk fRow bRow fGen bGen width y e spaces n x).1
          a b = t a b) := by
  intro n
  induction n with
  | zero =>
    intro x t hx hfuel hI1 hI2
    refine ⟨fun col h1 h2 => hI1 col h1 (by omega), fun a b _ => rfl⟩
  | succ n ih =>
    intro x t hx hfuel hI1 hI2
    by_cases hex : e ≤ x
    · have hw0 : (diffWalk fRow bRow fGen bGen width y e spaces (n + 1) x).1
          = [] := by
        simp only [diffWalk]
        rw [if_pos hex]
      rw [hw0]
      exact ⟨fun col h1 h2 => hI1 col h1 (by omega), fun a b _ => rfl⟩
    · by_cases hA : (fRow x).gen ≠ fGen ∧ (bRow x).gen ≠ bGen
      · -- both absent: silent skip
        have hrw : diffWalk fRow bRow fGen bGen width y e spaces (n + 1) x =
            diffWalk fRow bRow fGen bGen width y e spaces n (x + 1) := by
          simp only [diffWalk]
          rw [if_neg hex, if_pos (by simp [hA.1, hA.2])]
        rw [hrw]
        have hI1' : ∀ col : Int, s0 ≤ col → col < x + 1 →
            t col y = renderRow bRow bGen width col := by
          apply walkI1_step bRow bGen width y s0 x (x + 1) t t hI1
            (fun col _ _ => rfl)
          intro col h1 h2
          have hcx : col = x := by omega
          subst hcx
          rw [hI2 col (le_refl _) (by omega), if_neg (fun hc => hA.2 hc.1),
            renderRow_absent fRow fGen width col hA.1,
            renderRow_absent bRow bGen width col hA.2]
        have hI2' : ∀ col : Int, x + 1 ≤ col → col < e →
            t col y = if (bRow col).gen = bGen ∧ (bRow col).cont = true ∧
                (bRow col).leadX < x + 1
              then renderRow bRow bGen width col
              else renderRow fRow fGen width col := by
          apply walkI2_step fRow bRow fGen bGen width y e x (x + 1)
            (by omega) t t hI2
          intro col h1 h2
          left
          refine ⟨rfl, fun hg hc hrange => ?_⟩
          have hcx : (bRow col).leadX = x := by omega
          obtain ⟨_, _, _, _, hlg, _, _, _⟩ :=
            hbi.cont_ok col (by omega) (by omega) hg hc
          rw [hcx] at hlg
          exact hA.2 hlg
        exact ih (x + 1) t (by omega) (by omega) hI1' hI2'
      · by_cases hB : (bRow x).gen = bGen ∧ (bRow x).cont = true
        · -- present continuation: covered, silent skip
          have hcov := covered_of_rowinv seg bRow bGen width hbi x (by omega)
            (by omega) hB.1 hB.2
          have hrw : diffWalk fRow bRow fGen bGen width y e spaces (n + 1) x =
              diffWalk fRow bRow fGen bGen width y e spaces n (x + 1) := by
            simp only [diffWalk]
            rw [if_neg hex, if_neg (by simpa using hA),
              if_pos (by simp [hB.1, hB.2]), if_pos hcov]
          rw [hrw]
          obtain ⟨_, _, hl0, hlx, hlg', hlc', _, _⟩ :=
            hbi.cont_ok x (by omega) (by omega) hB.1 hB.2
          have hI1' : ∀ col : Int, s0 ≤ col → col < x + 1 →
              t col y = renderRow bRow bGen width col := by
            apply walkI1_step bRow bGen width y s0 x (x + 1) t t hI1
              (fun col _ _ => rfl)
            intro col h1 h2
            have hcx : col = x := by omega
            subst hcx
            rw [hI2 col (le_refl _) (by omega), if_pos ⟨hB.1, hB.2, hlx⟩]
          have hI2' : ∀ col : Int, x + 1 ≤ col → col < e →
              t col y = if (bRow col).gen = bGen ∧ (bRow col).cont = true ∧
                  (bRow col).leadX < x + 1
                then renderRow bRow bGen width col
                else renderRow fRow fGen width col := by
            apply walkI2_step fRow bRow fGen bGen width y e x (x + 1)
              (by omega) t t hI2
            intro col h1 h2
            left
            refine ⟨rfl, fun hg hc hrange => ?_⟩
            have hcx : (bRow col).leadX = x := by omega
            obtain ⟨_, _, _, _, _, hlc2, _, _⟩ :=
              hbi.cont_ok col (by omega) (by omega) hg hc
            rw [hcx, hB.2] at hlc2
            exact absurd hlc2 (by decide)
          exact ih (x + 1) t (by omega) (by omega) hI1' hI2'
        · by_cases hC : cellsEqual (fRow x) (decide ((fRow x).gen = fGen))
              (bRow x) (decide ((bRow x).gen = bGen)) = true
          · -- semantically equal: silent skip
            obtain ⟨hok, hfields⟩ :=
              cellsEqual_true_elim (fRow x) (bRow x) _ _ hC
            have hfok : (fRow x).gen = fGen := by
              by_contra hff
              have hbf : (bRow x).gen ≠ bGen := by
                intro hbb
                rw [decide_eq_true hbb] at hok
                exact hff (by simpa using hok)
              exact hA ⟨hff, hbf⟩
            have hbok : (bRow x).gen = bGen := by
              have h1 : decide ((bRow x).gen = bGen) = true := by
                rw [← hok]
                simp [hfok]
              simpa using h1
            obtain ⟨ht, hs, hd, hcnt, hl⟩ := hfields (by simp [hfok])
            have hbcont : (bRow x).cont = false := by
              cases hcv : (bRow x).cont with
              | false => rfl
              | true => exact absurd ⟨hbok, hcv⟩ hB
            have hfcont : (fRow x).cont = false := by
              rw [hcnt]
              exact hbcont
            have hrw : diffWalk fRow bRow fGen bGen width y e spaces (n + 1) x =
                diffWalk fRow bRow fGen bGen width y e spaces n (x + 1) := by
              simp only [diffWalk]
              rw [if_neg hex, if_neg (by simpa using hA),
                if_neg (by simp [hbcont]), if_pos hC]
            rw [hrw]
            have hI1' : ∀ col : Int, s0 ≤ col → col < x + 1 →
                t col y = renderRow bRow bGen width col := by
              apply walkI1_step bRow bGen width y s0 x (x + 1) t t hI1
                (fun col _ _ => rfl)
              intro col h1 h2
              have hcx : col = x := by omega
              subst hcx
              rw [hI2 col (le_refl _) (by omega), if_neg (by simp [hbcont]),
                renderRow_lead fRow fGen width col hfok hfcont,
                renderRow_lead bRow bGen width col hbok hbcont, ht, hs]
            have hI2' : ∀ col : Int, x + 1 ≤ col → col < e →
                t col y = if (bRow col).gen = bGen ∧ (bRow col).cont = true ∧
                    (bRow col).leadX < x + 1
                  then renderRow bRow bGen width col
                  else renderRow fRow fGen width col := by
              apply walkI2_step fRow bRow fGen bGen width y e x (x + 1)
                (by omega) t t hI2
              intro col h1 h2
              by_cases hdl : (bRow col).gen = bGen ∧ (bRow col).cont = true ∧
                  (bRow col).leadX = x
              · right
                obtain ⟨hg2, hc2, hx2⟩ := hdl
                refine ⟨hg2, hc2, by omega, by omega, ?_⟩
                obtain ⟨_, _, _, hlx2, _, _, hldw2, hcov2⟩ :=
                  hbi.cont_ok col (by omega) (by omega) hg2 hc2
                rw [hx2] at hlx2 hcov2 hldw2
                rw [hI2 col (by omega) h2,
                  if_neg (fun hq => by rw [hx2] at hq; exact lt_irrefl x hq.2.2)]
                have hfdw : 1 < (fRow x).dw := by
                  rw [hd]
                  exact hldw2
                have hclos := hfi.closure x (by omega) (by omega) hfok hfcont
                  hfdw (col - x) (by omega) (by rw [hd]; omega) (by omega)
                have hxx : x + (col - x) = col := by omega
                rw [hxx] at hclos
                rw [renderRow_cont seg fRow fGen width hfi col (by omega)
                    (by omega) hclos.1 hclos.2.1,
                  renderRow_cont seg bRow bGen width hbi col (by omega)
                    (by omega) hg2 hc2, hclos.2.2, hx2]
              · left
                exact ⟨rfl, fun hg hc hrange => hdl ⟨hg, hc, by omega⟩⟩
            exact ih (x + 1) t (by omega) (by omega) hI1' hI2'
          · by_cases hbok : (bRow x).gen = bGen
            · -- back present, not a continuation, differs from front
              have hbcont : (bRow x).cont = false := by
                cases hcv : (bRow x).cont with
                | false => rfl
                | true => exact absurd ⟨hbok, hcv⟩ hB
              obtain ⟨hblx, hbdw1, hbne, hbsegf⟩ :=
                hbi.lead_fields x (by omega) (by omega) hbok hbcont
              by_cases hE : (bRow x).dw = 1
              · -- width-1 text run
                have hstop : ¬((fRow x).gen = fGen ∧
                    (fRow x).style = (bRow x).style ∧
                    (fRow x).dw = (bRow x).dw ∧
                    (fRow x).text = (bRow x).text) := by
                  rintro ⟨hfok, hseq, hdeq, hteq⟩
                  have hfcont : (fRow x).cont = false := by
                    cases hfc : (fRow x).cont with
                    | false => rfl
                    | true =>
                      obtain ⟨_, hfdw0, _⟩ :=
                        hfi.cont_ok x (by omega) (by omega) hfok hfc
                      rw [hdeq, hE] at hfdw0
                      exact absurd hfdw0 (by decide)
                  obtain ⟨hfl, _, _, _⟩ :=
                    hfi.lead_fields x (by omega) (by omega) hfok hfcont
                  apply hC
                  rw [decide_eq_true hfok, decide_eq_true hbok]
                  exact cellsEqual_true_intro (fRow x) (bRow x)
                    ⟨hteq, hseq, hdeq, by rw [hfcont, hbcont],
                      by rw [hfl, hblx]⟩
                have hcells : ∀ col : Int, x ≤ col → col < e →
                    (bRow col).gen = bGen → (bRow col).dw = 1 →
                    (bRow col).text ≠ "" ∧
                    ∀ r : String, seg ((bRow col).text ++ r) =
                      ((bRow col).text, r, 1) := by
                  intro col h1 h2 hg hdw1
                  have hcont : (bRow col).cont = false := by
                    cases hcc : (bRow col).cont with
                    | false => rfl
                    | true =>
                      obtain ⟨_, h0', _⟩ :=
                        hbi.cont_ok col (by omega) (by omega) hg hcc
                      rw [hdw1] at h0'
                      exact absurd h0' (by decide)
                  obtain ⟨_, _, hne, hsegc⟩ :=
                    hbi.lead_fields col (by omega) (by omega) hg hcont
                  refine ⟨hne, fun r => ?_⟩
                  have h2' := hsegc r
                  rw [hdw1] at h2'
                  exact_mod_cast h2'
                obtain ⟨hp1, hp2, hp3⟩ := textRun_props fRow bRow fGen bGen
                  ((bRow x).style) e (e - x).toNat x (by omega)
                have hadv : x + 1 ≤ (textRun fRow bRow fGen bGen
                    ((bRow x).style) e (e - x).toNat x "").1 := by
                  obtain ⟨m, hm⟩ : ∃ m, (e - x).toNat = m + 1 :=
                    ⟨(e - x).toNat - 1, by omega⟩
                  rw [hm]
                  exact textRun_advance fRow bRow fGen bGen e m x (by omega)
                    hbok hE hstop
                have hrw : diffWalk fRow bRow fGen bGen width y e spaces (n + 1)
                    x = (ScreenOp.putStrStyled x y
                      (textRun fRow bRow fGen bGen ((bRow x).style) e
                        (e - x).toNat x "").2 ((bRow x).style) ::
                      (diffWalk fRow bRow fGen bGen width y e spaces n
                        (textRun fRow bRow fGen bGen ((bRow x).style) e
                          (e - x).toNat x "").1).1, true) := by
                  simp only [diffWalk]
                  rw [if_neg hex, if_neg (by simpa using hA),
                    if_neg (by simp [hbcont]), if_neg hC,
                    if_neg (not_not_intro hbok), if_pos hE]
                rw [hrw]
                rw [show ∀ q : List ScreenOp × Bool, (ScreenOp.putStrStyled x y
                    (textRun fRow bRow fGen bGen ((bRow x).style) e
                      (e - x).toNat x "").2 ((bRow x).style) :: q.1, true).1
                  = ScreenOp.putStrStyled x y
                    (textRun fRow bRow fGen bGen ((bRow x).style) e
                      (e - x).toNat x "").2 ((bRow x).style) :: q.1
                  from fun q => rfl]
                rw [applyOps_cons]
                have ht1 : ∀ a b : Int,
                    applyOp seg t (ScreenOp.putStrStyled x y
                      (textRun fRow bRow fGen bGen ((bRow x).style) e
                        (e - x).toNat x "").2 ((bRow x).style)) a b =
                    if b = y ∧ x ≤ a ∧ a < (textRun fRow bRow fGen bGen
                        ((bRow x).style) e (e - x).toNat x "").1
                    then TermCell.glyph (bRow a).text ((bRow x).style)
                    else t a b :=
                  fun a b => textRun_effect seg fRow bRow fGen bGen
                    ((bRow x).style) e y (e - x).toNat x (by omega) hcells
                    ((textRun fRow bRow fGen bGen ((bRow x).style) e
                      (e - x).toNat x "").2.length) t (le_refl _) a b
                have hI1' : ∀ col : Int, s0 ≤ col → col <
                    (textRun fRow bRow fGen bGen ((bRow x).style) e
                      (e - x).toNat x "").1 →
                    applyOp seg t (ScreenOp.putStrStyled x y
                      (textRun fRow bRow fGen bGen ((bRow x).style) e
                        (e - x).toNat x "").2 ((bRow x).style)) col y =
                    renderRow bRow bGen width col := by
                  apply walkI1_step bRow bGen width y s0 x _
                    t _ hI1
                  · intro col h1 h2
                    rw [ht1 col y, if_neg (fun hq => by omega)]
                  · intro col h1 h2
                    obtain ⟨hg3, hs3, hd3⟩ := hp3 col h1 h2
                    have hcont3 : (bRow col).cont = false := by
                      cases hcc : (bRow col).cont with
                      | false => rfl
                      | true =>
                        obtain ⟨_, h0', _⟩ :=
                          hbi.cont_ok col (by omega) (by omega) hg3 hcc
                        rw [hd3] at h0'
                        exact absurd h0' (by decide)
                    rw [ht1 col y, if_pos ⟨rfl, h1, h2⟩,
                      renderRow_lead bRow bGen width col hg3 hcont3, hs3]
                have hI2' : ∀ col : Int,
                    (textRun fRow bRow fGen bGen ((bRow x).style) e
                      (e - x).toNat x "").1 ≤ col → col < e →
                    applyOp seg t (ScreenOp.putStrStyled x y
                      (textRun fRow bRow fGen bGen ((bRow x).style) e
                        (e - x).toNat x "").2 ((bRow x).style)) col y =
                    if (bRow col).gen = bGen ∧ (bRow col).cont = true ∧
                        (bRow col).leadX <
                        (textRun fRow bRow fGen bGen ((bRow x).style) e
                          (e - x).toNat x "").1
                    then renderRow bRow bGen width col
                    else renderRow fRow fGen width col := by
                  apply walkI2_step fRow bRow fGen bGen width y e x _
                    (by omega) t _ hI2
                  intro col h1 h2
                  left
                  refine ⟨by rw [ht1 col y, if_neg (fun hq => by omega)],
                    fun hg hc hrange => ?_⟩
                  obtain ⟨_, _, _, _, hlg4, _, hldw4, _⟩ :=
                    hbi.cont_ok col (by omega) (by omega) hg hc
                  obtain ⟨_, _, hd4⟩ := hp3 ((bRow col).leadX) hrange.1 hrange.2
                  rw [hd4] at hldw4
                  exact absurd hldw4 (by decide)
                obtain ⟨ihc1, ihc2⟩ := ih
                  ((textRun fRow bRow fGen bGen ((bRow x).style) e
                    (e - x).toNat x "").1)
                  (applyOp seg t (ScreenOp.putStrStyled x y
                    (textRun fRow bRow fGen bGen ((bRow x).style) e
                      (e - x).toNat x "").2 ((bRow x).style)))
                  (by omega) (by omega) hI1' hI2'
                refine ⟨fun col h1 h2 => ihc1 col h1 h2, ?_⟩
                intro a b hab
                rw [ihc2 a b hab, ht1 a b, if_neg ?_]
                rcases hab with hb | ha | ⟨ha1, ha2⟩
                · exact fun hq => hb hq.1
                · exact fun hq => by omega
                · exact fun hq => by omega
              · -- wide glyph: single Put
                have hbdw2 : 2 ≤ (bRow x).dw := by omega
                have hrw : diffWalk fRow bRow fGen bGen width y e spaces (n + 1)
                    x = (ScreenOp.put x y ((bRow x).text) ((bRow x).style) ::
                      (diffWalk fRow bRow fGen bGen width y e spaces n
                        (x + 1)).1, true) := by
                  simp only [diffWalk]
                  rw [if_neg hex, if_neg (by simpa using hA),
                    if_neg (by simp [hbcont]), if_neg hC,
                    if_neg (not_not_intro hbok), if_neg hE]
                rw [hrw]
                rw [show ∀ q : List ScreenOp × Bool, (ScreenOp.put x y
                    ((bRow x).text) ((bRow x).style) :: q.1, true).1
                  = ScreenOp.put x y ((bRow x).text) ((bRow x).style) :: q.1
                  from fun q => rfl]
                rw [applyOps_cons]
                have ht1 : ∀ a b : Int,
                    applyOp seg t (ScreenOp.put x y ((bRow x).text)
                      ((bRow x).style)) a b =
                    if b = y ∧ a = x
                    then TermCell.glyph ((bRow x).text) ((bRow x).style)
                    else if b = y ∧ x < a ∧ a < x + ((bRow x).dw : Int)
                    then TermCell.contc x
                    else t a b :=
                  fun a b => termPutStr_single seg y ((bRow x).style)
                    ((bRow x).text) (((bRow x).dw : Int)) hbne (by omega)
                    hbsegf ((bRow x).text.length)
                    (str_length_pos_of_ne _ hbne) t x a b
                have hzone : ∀ a : Int, x < a → a < x + ((bRow x).dw : Int) →
                    a < width → (bRow a).gen = bGen ∧ (bRow a).cont = true ∧
                      (bRow a).leadX = x := by
                  intro a ha1 ha2 ha3
                  have hclos := hbi.closure x (by omega) (by omega) hbok hbcont
                    (by omega) (a - x) (by omega) (by omega) (by omega)
                  have hxx : x + (a - x) = a := by omega
                  rw [hxx] at hclos
                  exact hclos
                have hI1' : ∀ col : Int, s0 ≤ col → col < x + 1 →
                    applyOp seg t (ScreenOp.put x y ((bRow x).text)
                      ((bRow x).style)) col y =
                    renderRow bRow bGen width col := by
                  apply walkI1_step bRow bGen width y s0 x (x + 1) t _ hI1
                  · intro col h1 h2
                    rw [ht1 col y, if_neg (fun hq => by omega),
                      if_neg (fun hq => by omega)]
                  · intro col h1 h2
                    have hcx : col = x := by omega
                    subst hcx
                    rw [ht1 col y, if_pos ⟨rfl, rfl⟩,
                      renderRow_lead bRow bGen width col hbok hbcont]
                have hI2' : ∀ col : Int, x + 1 ≤ col → col < e →
                    applyOp seg t (ScreenOp.put x y ((bRow x).text)
                      ((bRow x).style)) col y =
                    if (bRow col).gen = bGen ∧ (bRow col).cont = true ∧
                        (bRow col).leadX < x + 1
                    then renderRow bRow bGen width col
                    else renderRow fRow fGen width col := by
                  apply walkI2_step fRow bRow fGen bGen width y e x (x + 1)
                    (by omega) t _ hI2
                  intro col h1 h2
                  by_cases hz : col < x + ((bRow x).dw : Int)
                  · right
                    obtain ⟨hg5, hc5, hl5⟩ := hzone col (by omega) hz (by omega)
                    refine ⟨hg5, hc5, by omega, by omega, ?_⟩
                    rw [ht1 col y, if_neg (fun hq => by omega),
                      if_pos ⟨rfl, by omega, hz⟩,
                      renderRow_cont seg bRow bGen width hbi col (by omega)
                        (by omega) hg5 hc5, hl5]
                  · left
                    refine ⟨by rw [ht1 col y, if_neg (fun hq => by omega),
                      if_neg (fun hq => by omega)], fun hg hc hrange => ?_⟩
                    have hcx : (bRow col).leadX = x := by omega
                    obtain ⟨_, _, _, _, _, _, _, hcov6⟩ :=
                      hbi.cont_ok col (by omega) (by omega) hg hc
                    rw [hcx] at hcov6
                    exact hz hcov6
                obtain ⟨ihc1, ihc2⟩ := ih (x + 1)
                  (applyOp seg t (ScreenOp.put x y ((bRow x).text)
                    ((bRow x).style)))
                  (by omega) (by omega) hI1' hI2'
                refine ⟨fun col h1 h2 => ihc1 col h1 h2, ?_⟩
                intro a b hab
                rw [ihc2 a b hab, ht1 a b, if_neg ?_, if_neg ?_]
                · rcases hab with hb | ha | ⟨ha1, ha2⟩
                  · exact fun hq => hb hq.1
                  · exact fun hq => by omega
                  · intro hq
                    obtain ⟨hg7, _, _⟩ := hzone a hq.2.1 hq.2.2 ha2
                    have := hbspan a (by omega) ha2 hg7
                    omega
                · rcases hab with hb | ha | ⟨ha1, ha2⟩
                  · exact fun hq => hb hq.1
                  · exact fun hq => by omega
                  · exact fun hq => by omega
            · -- back absent, front present: clear run
              have hD : (bRow x).gen ≠ bGen := hbok
              have hfok : (fRow x).gen = fGen := by
                by_contra hff
                exact hA ⟨hff, hD⟩
              obtain ⟨hp1, hp2, hp3⟩ := clearRunEnd_props fRow bRow fGen bGen e
                (e - x).toNat x (by omega)
              have hadv : x + 1 ≤ clearRunEnd fRow bRow fGen bGen e
                  (e - x).toNat x := by
                obtain ⟨m, hm⟩ : ∃ m, (e - x).toNat = m + 1 :=
                  ⟨(e - x).toNat - 1, by omega⟩
                rw [hm]
                exact clearRunEnd_advance fRow bRow fGen bGen e m x (by omega)
                  hD hfok
              have hrw : diffWalk fRow bRow fGen bGen width y e spaces (n + 1)
                  x = (ScreenOp.putStrStyled x y
                    (spacesTake spaces ((clearRunEnd fRow bRow fGen bGen e
                      (e - x).toNat x - x).toNat)) StyleDefault ::
                    (diffWalk fRow bRow fGen bGen width y e spaces n
                      (clearRunEnd fRow bRow fGen bGen e
                        (e - x).toNat x)).1, true) := by
                simp only [diffWalk]
                rw [if_neg hex, if_neg (by simpa using hA),
                  if_neg (by simp [hD]), if_neg hC, if_pos hD]
              rw [hrw]
              rw [show ∀ q : List ScreenOp × Bool, (ScreenOp.putStrStyled x y
                  (spacesTake spaces ((clearRunEnd fRow bRow fGen bGen e
                    (e - x).toNat x - x).toNat)) StyleDefault :: q.1, true).1
                = ScreenOp.putStrStyled x y
                  (spacesTake spaces ((clearRunEnd fRow bRow fGen bGen e
                    (e - x).toNat x - x).toNat)) StyleDefault :: q.1
                from fun q => rfl]
              rw [applyOps_cons]
              have hkle : ((clearRunEnd fRow bRow fGen bGen e
                  (e - x).toNat x - x).toNat) ≤ spaces.length := by omega
              rw [spacesTake_eq_replicate spaces hsp _ hkle]
              have hkx : x + (((clearRunEnd fRow bRow fGen bGen e
                  (e - x).toNat x - x).toNat : Nat) : Int) =
                  clearRunEnd fRow bRow fGen bGen e (e - x).toNat x := by
                omega
              have ht1 : ∀ a b : Int,
                  applyOp seg t (ScreenOp.putStrStyled x y
                    (String.mk (List.replicate ((clearRunEnd fRow bRow fGen bGen
                      e (e - x).toNat x - x).toNat) ' ')) StyleDefault) a b =
                  if b = y ∧ x ≤ a ∧ a < clearRunEnd fRow bRow fGen bGen e
                      (e - x).toNat x
                  then TermCell.glyph " " StyleDefault
                  else t a b := by
                intro a b
                have heff := termPutStr_replicate seg hsegsp y StyleDefault
                  ((clearRunEnd fRow bRow fGen bGen e (e - x).toNat x
                    - x).toNat)
                  ((String.mk (List.replicate ((clearRunEnd fRow bRow fGen bGen
                    e (e - x).toNat x - x).toNat) ' ')).length)
                  (by rw [replicate_str_length]) t x a b
                rw [hkx] at heff
                exact heff
              have hI1' : ∀ col : Int, s0 ≤ col →
                  col < clearRunEnd fRow bRow fGen bGen e (e - x).toNat x →
                  applyOp seg t (ScreenOp.putStrStyled x y
                    (String.mk (List.replicate ((clearRunEnd fRow bRow fGen bGen
                      e (e - x).toNat x - x).toNat) ' ')) StyleDefault) col y =
                  renderRow bRow bGen width col := by
                apply walkI1_step bRow bGen width y s0 x _ t _ hI1
                · intro col h1 h2
                  rw [ht1 col y, if_neg (fun hq => by omega)]
                · intro col h1 h2
                  rw [ht1 col y, if_pos ⟨rfl, h1, h2⟩,
                    renderRow_absent bRow bGen width col (hp3 col h1 h2)]
              have hI2' : ∀ col : Int,
                  clearRunEnd fRow bRow fGen bGen e (e - x).toNat x ≤ col →
                  col < e →
                  applyOp seg t (ScreenOp.putStrStyled x y
                    (String.mk (List.replicate ((clearRunEnd fRow bRow fGen bGen
                      e (e - x).toNat x - x).toNat) ' ')) StyleDefault) col y =
                  if (bRow col).gen = bGen ∧ (bRow col).cont = true ∧
                      (bRow col).leadX <
                      clearRunEnd fRow bRow fGen bGen e (e - x).toNat x
                  then renderRow bRow bGen width col
                  else renderRow fRow fGen width col := by
                apply walkI2_step fRow bRow fGen bGen width y e x _
                  (by omega) t _ hI2
                intro col h1 h2
                left
                refine ⟨by rw [ht1 col y, if_neg (fun hq => by omega)],
                  fun hg hc hrange => ?_⟩
                obtain ⟨_, _, _, _, hlg8, _, _, _⟩ :=
                  hbi.cont_ok col (by omega) (by omega) hg hc
                exact hp3 ((bRow col).leadX) hrange.1 hrange.2 hlg8
              obtain ⟨ihc1, ihc2⟩ := ih
                (clearRunEnd fRow bRow fGen bGen e (e - x).toNat x)
                (applyOp seg t (ScreenOp.putStrStyled x y
                  (String.mk (List.replicate ((clearRunEnd fRow bRow fGen bGen
                    e (e - x).toNat x - x).toNat) ' ')) StyleDefault))
                (by omega) (by omega) hI1' hI2'
              refine ⟨fun col h1 h2 => ihc1 col h1 h2, ?_⟩
              intro a b hab
              rw [ihc2 a b hab, ht1 a b, if_neg ?_]
              rcases hab with hb | ha | ⟨ha1, ha2⟩
              · exact fun hq => hb hq.1
              · exact fun hq => by omega
              · exact fun hq => by omega

end Tview

namespace Tview

theorem rowSpan_none_rowGen (f : frame) (y : Int) (hy0 : 0 ≤ y)
    (hy1 : y < f.height) (h : f.rowSpan y = none) : f.rowGen y ≠ f.gen := by
  unfold frame.rowSpan at h
  split at h
  · rename_i hcond
    exact absurd hcond (by omega)
  · split at h
    · rename_i h2
      exact h2
    · exact absurd h (by simp)

theorem unionSpan_none_elim (front back : frame) (y : Int)
    (h : unionSpan front back y = none) :
    back.rowSpan y = none ∧ front.rowSpan y = none := by
  unfold unionSpan at h
  cases hbs : back.rowSpan y with
  | some p =>
    obtain ⟨bs, be⟩ := p
    cases hfs : front.rowSpan y with
    | some q =>
      obtain ⟨fs, fe⟩ := q
      rw [hbs, hfs] at h
      simp at h
    | none =>
      rw [hbs, hfs] at h
      simp at h
  | none =>
    cases hfs : front.rowSpan y with
    | some q =>
      obtain ⟨fs, fe⟩ := q
      rw [hbs, hfs] at h
      simp at h
    | none => exact ⟨rfl, rfl⟩

/-- A present in-bounds back cell lies inside the union dirty range of its
row. -/
theorem union_covers_back (seg : String → String × String × Int)
    (front back : frame) (y : Int) (hB : FrameInv seg back)
    (col : Int) (h1 : 0 ≤ col) (h2 : col < back.width)
    (hy0 : 0 ≤ y) (hy1 : y < back.height)
    (hp : (back.cells (y * back.width + col)).gen = back.gen) :
    ∀ s e : Int, unionSpan front back y = some (s, e) → s ≤ col ∧ col < e := by
  intro s e hus
  have hps := hB.present_in_span col y h1 h2 hy0 hy1 hp
  have hbs : back.rowSpan y = some (back.rowStart y, back.rowEnd y) := by
    unfold frame.rowSpan
    rw [if_neg (by omega), if_neg (not_not_intro hps.1)]
  unfold unionSpan at hus
  cases hfs : front.rowSpan y with
  | none =>
    rw [hbs, hfs] at hus
    dsimp only at hus
    obtain ⟨rfl, rfl⟩ := Prod.mk.injEq .. ▸ Option.some_inj.mp hus
    exact ⟨hps.2.1, hps.2.2⟩
  | some p =>
    obtain ⟨fs, fe⟩ := p
    rw [hbs, hfs] at hus
    dsimp only at hus
    obtain ⟨rfl, rfl⟩ := Prod.mk.injEq .. ▸ Option.some_inj.mp hus
    exact ⟨le_trans (min_le_left _ _) hps.2.1,
      lt_of_lt_of_le hps.2.2 (le_max_left _ _)⟩

/-- A present in-bounds front cell lies inside the union dirty range of its
row. -/
theorem union_covers_front (seg : String → String × String × Int)
    (front back : frame) (y : Int) (hF : FrameInv seg front)
    (hw : front.width = back.width) (hh : front.height = back.height)
    (col : Int) (h1 : 0 ≤ col) (h2 : col < back.width)
    (hy0 : 0 ≤ y) (hy1 : y < back.height)
    (hp : (front.cells (y * back.width + col)).gen = front.gen) :
    ∀ s e : Int, unionSpan front back y = some (s, e) → s ≤ col ∧ col < e := by
  intro s e hus
  have hp' : (frameRow front y col).gen = front.gen := by
    unfold frameRow
    rw [hw]
    exact hp
  have hps := hF.present_in_span col y h1 (by rw [hw]; exact h2) hy0
    (by rw [hh]; exact hy1) hp'
  have hfsp : front.rowSpan y = some (front.rowStart y, front.rowEnd y) := by
    unfold frame.rowSpan
    rw [if_neg (by rw [hh]; omega), if_neg (not_not_intro hps.1)]
  unfold unionSpan at hus
  cases hbs : back.rowSpan y with
  | none =>
    rw [hbs, hfsp] at hus
    dsimp only at hus
    obtain ⟨rfl, rfl⟩ := Prod.mk.injEq .. ▸ Option.some_inj.mp hus
    exact ⟨hps.2.1, hps.2.2⟩
  | some p =>
    obtain ⟨bs, be⟩ := p
    rw [hbs, hfsp] at hus
    dsimp only at hus
    obtain ⟨rfl, rfl⟩ := Prod.mk.injEq .. ▸ Option.some_inj.mp hus
    exact ⟨le_trans (min_le_right _ _) hps.2.1,
      lt_of_lt_of_le hps.2.2 (le_max_right _ _)⟩

/-- Correctness of one row of the incremental diff: starting from a terminal
showing the front frame on this row, applying the row's emitted writes makes
every in-bounds column of the row show the back frame, and rows other than
`y` are untouched. -/
theorem diffRow_correct (seg : String → String × String × Int)
    (front back : frame) (spaces : String) (y : Int)
    (hw : front.width = back.width) (hh : front.height = back.height)
    (hF : FrameInv seg front) (hB : FrameInv seg back)
    (hy0 : 0 ≤ y) (hy1 : y < back.height)
    (hsp : spaces.data = List.replicate spaces.length ' ')
    (hspl : back.width ≤ (spaces.length : Int))
    (hsegsp : ∀ r : String, seg (" " ++ r) = (" ", r, 1))
    (hsig : ∀ s e : Int, unionSpan front back y = some (s, e) →
      rowRangeSignature (fun i => front.cells (y * back.width + i))
          front.gen s e =
        rowRangeSignature (fun i => back.cells (y * back.width + i))
          back.gen s e →
      RowsContentEq (fun i => front.cells (y * back.width + i))
        (fun i => back.cells (y * back.width + i)) front.gen back.gen s e)
    (t : Terminal)
    (ht : ∀ x : Int, 0 ≤ x → x < back.width → t x y = renderCell front x y) :
    (∀ x : Int, 0 ≤ x → x < back.width →
      applyOps seg t (diffRow front back spaces y).1 x y =
        renderCell back x y) ∧
    (∀ a b : Int, b ≠ y →
      applyOps seg t (diffRow front back spaces y).1 a b = t a b) := by
  have hfr : frameRow front y = (fun i => front.cells (y * back.width + i)) := by
    funext i
    unfold frameRow
    rw [hw]
  have hfi : RowInv seg (fun i => front.cells (y * back.width + i))
      front.gen back.width := by
    have h := hF.row_inv y hy0 (by rw [hh]; exact hy1)
    rw [hfr, hw] at h
    exact h
  have hbi : RowInv seg (fun i => back.cells (y * back.width + i))
      back.gen back.width := hB.row_inv y hy0 hy1
  have hrcf : ∀ col : Int, renderCell front col y =
      renderRow (fun i => front.cells (y * back.width + i)) front.gen
        back.width col := by
    intro col
    unfold renderCell
    rw [hfr, hw]
  have hrcb : ∀ col : Int, renderCell back col y =
      renderRow (fun i => back.cells (y * back.width + i)) back.gen
        back.width col := fun col => rfl
  have hboth : ∀ col : Int, 0 ≤ col → col < back.width →
      (front.cells (y * back.width + col)).gen ≠ front.gen →
      (back.cells (y * back.width + col)).gen ≠ back.gen →
      renderCell front col y = renderCell back col y := by
    intro col h1 h2 hfa hba
    rw [hrcf, hrcb,
      renderRow_absent (fun i => front.cells (y * back.width + i)) front.gen
        back.width col hfa,
      renderRow_absent (fun i => back.cells (y * back.width + i)) back.gen
        back.width col hba]
  cases hus : unionSpan front back y with
  | none =>
    have hrw : diffRow front back spaces y = ([], false) := by
      unfold diffRow
      rw [hus]
    rw [hrw]
    obtain ⟨hbs, hfs⟩ := unionSpan_none_elim front back y hus
    have hfg : front.rowGen y ≠ front.gen :=
      rowSpan_none_rowGen front y hy0 (by rw [hh]; exact hy1) hfs
    have hbg : back.rowGen y ≠ back.gen :=
      rowSpan_none_rowGen back y hy0 hy1 hbs
    refine ⟨fun col h1 h2 => ?_, fun a b _ => rfl⟩
    show t col y = renderCell back col y
    rw [ht col h1 h2]
    refine hboth col h1 h2 (fun hp => ?_) (fun hp => ?_)
    · have hp' : (frameRow front y col).gen = front.gen := by
        unfold frameRow
        rw [hw]
        exact hp
      exact hfg (hF.present_in_span col y h1 (by rw [hw]; exact h2) hy0
        (by rw [hh]; exact hy1) hp').1
    · exact hbg (hB.present_in_span col y h1 h2 hy0 hy1 hp).1
  | some p =>
    obtain ⟨s, e⟩ := p
    have hbin : ∀ col : Int, 0 ≤ col → col < back.width →
        (back.cells (y * back.width + col)).gen = back.gen →
        s ≤ col ∧ col < e :=
      fun col h1 h2 hp =>
        union_covers_back seg front back y hB col h1 h2 hy0 hy1 hp s e hus
    have hfin : ∀ col : Int, 0 ≤ col → col < back.width →
        (front.cells (y * back.width + col)).gen = front.gen →
        s ≤ col ∧ col < e :=
      fun col h1 h2 hp =>
        union_covers_front seg front back y hF hw hh col h1 h2 hy0 hy1 hp s e hus
    by_cases hes : e ≤ s
    · have hrw : diffRow front back spaces y = ([], false) := by
        unfold diffRow
        rw [hus]
        dsimp only
        rw [if_pos hes]
      rw [hrw]
      refine ⟨fun col h1 h2 => ?_, fun a b _ => rfl⟩
      show t col y = renderCell back col y
      rw [ht col h1 h2]
      exact hboth col h1 h2
        (fun hp => by have := hfin col h1 h2 hp; omega)
        (fun hp => by have := hbin col h1 h2 hp; omega)
    · obtain ⟨hy0', hy1', hs0, hew⟩ := unionSpan_bounds front back y s e hw hh
        hF.span_wf hB.span_wf hus
      by_cases hsigeq : rowRangeSignature
          (fun i => front.cells (y * back.width + i)) front.gen s e =
          rowRangeSignature (fun i => back.cells (y * back.width + i))
            back.gen s e
      · have hrw : diffRow front back spaces y = ([], false) := by
          unfold diffRow
          rw [hus]
          dsimp only
          rw [if_neg hes, if_pos hsigeq]
        rw [hrw]
        have hcontent := hsig s e hus hsigeq
        refine ⟨fun col h1 h2 => ?_, fun a b _ => rfl⟩
        show t col y = renderCell back col y
        rw [ht col h1 h2]
        by_cases hcin : s ≤ col ∧ col < e
        · rw [hrcf, hrcb]
          obtain ⟨hiff, hfields⟩ := hcontent col hcin.1 hcin.2
          exact renderRow_eq_of_fields seg _ _ front.gen back.gen back.width
            hfi hbi col h1 h2 hiff hfields
        · exact hboth col h1 h2
            (fun hp => hcin (hfin col h1 h2 hp))
            (fun hp => hcin (hbin col h1 h2 hp))
      · have hrw : diffRow front back spaces y =
            diffWalk (fun i => front.cells (y * back.width + i))
              (fun i => back.cells (y * back.width + i)) front.gen back.gen
              back.width y e spaces (e - s).toNat s := by
          unfold diffRow
          rw [hus]
          dsimp only
          rw [if_neg hes, if_neg hsigeq]
        rw [hrw]
        obtain ⟨wc1, wc2⟩ := diffWalk_correct seg
          (fun i => front.cells (y * back.width + i))
          (fun i => back.cells (y * back.width + i)) front.gen back.gen
          back.width y e s spaces hfi hbi hew hs0 hsp hspl hsegsp
          (fun col h1 h2 hp => hbin col h1 h2 hp)
          (e - s).toNat s t (le_refl s) (le_refl _)
          (fun col h1 h2 => absurd h2 (not_lt.mpr h1))
          (by
            intro col h1 h2
            rw [if_neg ?_, ← hrcf col]
            · exact ht col (by omega) (by omega)
            · rintro ⟨hg, hc, hlts⟩
              have hlts' : (back.cells (y * back.width + col)).leadX < s := hlts
              obtain ⟨_, _, hl0, hlx, hlg, _, _, _⟩ :=
                hbi.cont_ok col (by omega) (by omega) hg hc
              have := hbin ((back.cells (y * back.width + col)).leadX)
                (by omega) (by omega) hlg
              omega)
        constructor
        · intro col h1 h2
          by_cases hcin : s ≤ col ∧ col < e
          · rw [hrcb col]
            exact wc1 col hcin.1 hcin.2
          · have hout : col < s ∨ (e ≤ col ∧ col < back.width) := by omega
            rw [wc2 col y (Or.inr hout), ht col h1 h2]
            exact hboth col h1 h2
              (fun hp => hcin (hfin col h1 h2 hp))
              (fun hp => hcin (hbin col h1 h2 hp))
        · intro a b hb
          exact wc2 a b (Or.inl hb)

end Tview

namespace Tview

/-- Every write the walk emits is addressed inside `[x, e)` of row `y`. -/
theorem diffWalk_target_range (fRow bRow : Int → cell) (fGen bGen : Nat)
    (width y e : Int) (spaces : String) (n : Nat) (x : Int) :
    ∀ op ∈ (diffWalk fRow bRow fGen bGen width y e spaces n x).1,
      ∃ tx : Int, opTarget op = some (tx, y) ∧ x ≤ tx ∧ tx < e := by
  induction n generalizing x with
  | zero =>
    intro op hop
    exact absurd hop (by simp [diffWalk])
  | succ n ih =>
    intro op hop
    simp only [diffWalk] at hop
    split at hop
    · exact absurd hop (by simp)
    · rename_i hex
      try dsimp only at hop
      split at hop
      · obtain ⟨tx, h1, h2, h3⟩ := ih (x + 1) op hop
        exact ⟨tx, h1, by omega, h3⟩
      · split at hop
        · split at hop
          · obtain ⟨tx, h1, h2, h3⟩ := ih (x + 1) op hop
            exact ⟨tx, h1, by omega, h3⟩
          · rcases List.mem_cons.mp hop with rfl | hmem
            · exact ⟨x, rfl, le_refl x, by omega⟩
            · obtain ⟨tx, h1, h2, h3⟩ := ih (x + 1) op hmem
              exact ⟨tx, h1, by omega, h3⟩
        · split at hop
          · obtain ⟨tx, h1, h2, h3⟩ := ih (x + 1) op hop
            exact ⟨tx, h1, by omega, h3⟩
          · split at hop
            · rcases List.mem_cons.mp hop with rfl | hmem
              · exact ⟨x, rfl, le_refl x, by omega⟩
              · obtain ⟨tx, h1, h2, h3⟩ := ih _ op hmem
                have hcr := (clearRunEnd_props fRow bRow fGen bGen e
                  (e - x).toNat x (by omega)).1
                exact ⟨tx, h1, by omega, h3⟩
            · split at hop
              · rcases List.mem_cons.mp hop with rfl | hmem
                · exact ⟨x, rfl, le_refl x, by omega⟩
                · obtain ⟨tx, h1, h2, h3⟩ := ih _ op hmem
                  have htr := (textRun_props fRow bRow fGen bGen
                    ((bRow x).style) e (e - x).toNat x (by omega)).1
                  exact ⟨tx, h1, by omega, h3⟩
              · rcases List.mem_cons.mp hop with rfl | hmem
                · exact ⟨x, rfl, le_refl x, by omega⟩
                · obtain ⟨tx, h1, h2, h3⟩ := ih (x + 1) op hmem
                  exact ⟨tx, h1, by omega, h3⟩

/-- Every write a row of the incremental diff emits is addressed inside the
row's union dirty range. -/
theorem diffRow_target_range (front back : frame) (spaces : String) (y : Int) :
    ∀ op ∈ (diffRow front back spaces y).1,
      ∃ tx s e : Int, opTarget op = some (tx, y) ∧
        unionSpan front back y = some (s, e) ∧ s ≤ tx ∧ tx < e := by
  intro op hop
  unfold diffRow at hop
  split at hop
  · exact absurd hop (by simp)
  · rename_i s e hus
    split at hop
    · exact absurd hop (by simp)
    · dsimp only at hop
      split at hop
      · exact absurd hop (by simp)
      · obtain ⟨tx, h1, h2, h3⟩ :=
          diffWalk_target_range _ _ _ _ _ _ _ _ _ _ op hop
        exact ⟨tx, s, e, h1, hus, h2, h3⟩

/-- Every write `blitDiff`'s incremental mode emits is addressed inside the
union dirty range of its row. -/
theorem blitDiff_target_range (front back : frame) (spaces : String)
    (hca : back.clearAll = false) :
    ∀ op ∈ (blitDiff front back false spaces).ops,
      ∃ tx ty s e : Int, opTarget op = some (tx, ty) ∧
        unionSpan front back ty = some (s, e) ∧ s ≤ tx ∧ tx < e := by
  intro op hop
  rw [blitDiff_incremental front back spaces hca] at hop
  obtain ⟨y, hy, hmem⟩ := foldr_diffRows_mem front back spaces _ op hop
  obtain ⟨tx, s, e, h1, h2, h3, h4⟩ :=
    diffRow_target_range front back spaces y op hmem
  exact ⟨tx, y, s, e, h1, h2, h3, h4⟩

theorem applyOps_append (seg : String → String × String × Int) (t : Terminal)
    (l1 l2 : List ScreenOp) :
    applyOps seg t (l1 ++ l2) = applyOps seg (applyOps seg t l1) l2 := by
  unfold applyOps
  rw [List.foldl_append]

theorem rowsOf_nodup (h : Int) : (rowsOf h).Nodup := by
  unfold rowsOf
  exact (List.nodup_range _).map (fun a b hab => Int.ofNat.inj hab)

/-- Correctness of the incremental diff's row fold over any duplicate-free
list of in-bounds rows: starting from a terminal showing the front frame on
those rows, applying all emitted writes makes every listed row show the back
frame in-bounds, and rows not listed are untouched. -/
theorem foldr_rows_correct (seg : String → String × String × Int)
    (front back : frame) (spaces : String)
    (hw : front.width = back.width) (hh : front.height = back.height)
    (hF : FrameInv seg front) (hB : FrameInv seg back)
    (hsp : spaces.data = List.replicate spaces.length ' ')
    (hspl : back.width ≤ (spaces.length : Int))
    (hsegsp : ∀ r : String, seg (" " ++ r) = (" ", r, 1))
    (hsig : ∀ y : Int, 0 ≤ y → y < back.height → ∀ s e : Int,
      unionSpan front back y = some (s, e) →
      rowRangeSignature (fun i => front.cells (y * back.width + i))
          front.gen s e =
        rowRangeSignature (fun i => back.cells (y * back.width + i))
          back.gen s e →
      RowsContentEq (fun i => front.cells (y * back.width + i))
        (fun i => back.cells (y * back.width + i)) front.gen back.gen s e) :
    ∀ (l : List Int), (∀ y ∈ l, 0 ≤ y ∧ y < back.height) → l.Nodup →
      ∀ t : Terminal,
        (∀ x : Int, 0 ≤ x → x < back.width → ∀ y : Int, y ∈ l →
          t x y = renderCell front x y) →
        (∀ x : Int, 0 ≤ x → x < back.width → ∀ y : Int, y ∈ l →
          applyOps seg t (l.foldr (fun y acc =>
            ({ changed := (diffRow front back spaces y).2 || acc.changed,
               ops := (diffRow front back spaces y).1 ++ acc.ops } :
              BlitResult)) { changed := false, ops := [] }).ops x y =
            renderCell back x y) ∧
        (∀ a b : Int, b ∉ l →
          applyOps seg t (l.foldr (fun y acc =>
            ({ changed := (diffRow front back spaces y).2 || acc.changed,
               ops := (diffRow front back spaces y).1 ++ acc.ops } :
              BlitResult)) { changed := false, ops := [] }).ops a b = t a b) := by
  intro l
  induction l with
  | nil =>
    intro hbnd hnd t ht
    exact ⟨fun x h1 h2 y hy => absurd hy (List.not_mem_nil y),
      fun a b _ => rfl⟩
  | cons y0 l ih =>
    intro hbnd hnd t ht
    obtain ⟨hy0nin, hndl⟩ := List.nodup_cons.mp hnd
    obtain ⟨hb1, hb2⟩ := hbnd y0 (List.mem_cons_self y0 l)
    obtain ⟨rc1, rc2⟩ := diffRow_correct seg front back spaces y0 hw hh hF hB
      hb1 hb2 hsp hspl hsegsp (hsig y0 hb1 hb2) t
      (fun x h1 h2 => ht x h1 h2 y0 (List.mem_cons_self y0 l))
    have happly : applyOps seg t (((y0 :: l).foldr (fun y acc =>
        ({ changed := (diffRow front back spaces y).2 || acc.changed,
           ops := (diffRow front back spaces y).1 ++ acc.ops } :
          BlitResult)) { changed := false, ops := [] }).ops) =
        applyOps seg (applyOps seg t (diffRow front back spaces y0).1)
          ((l.foldr (fun y acc =>
            ({ changed := (diffRow front back spaces y).2 || acc.changed,
               ops := (diffRow front back spaces y).1 ++ acc.ops } :
              BlitResult)) { changed := false, ops := [] }).ops) :=
      applyOps_append seg t _ _
    obtain ⟨ic1, ic2⟩ := ih (fun y hy => hbnd y (List.mem_cons_of_mem y0 hy))
      hndl (applyOps seg t (diffRow front back spaces y0).1)
      (by
        intro x h1 h2 y hy
        have hne : y ≠ y0 := fun he => hy0nin (he ▸ hy)
        rw [rc2 x y hne]
        exact ht x h1 h2 y (List.mem_cons_of_mem y0 hy))
    refine ⟨?_, ?_⟩
    · intro x h1 h2 y hy
      rw [happly]
      rcases List.mem_cons.mp hy with rfl | hyl
      · rw [ic2 x y hy0nin]
        exact rc1 x h1 h2
      · exact ic1 x h1 h2 y hyl
    · intro a b hb
      rw [happly, ic2 a b (fun hbl => hb (List.mem_cons_of_mem y0 hbl)),
        rc2 a b (fun hbe => hb (hbe ▸ List.mem_cons_self y0 l))]

end Tview

namespace Tview

/-- C1: for every pair of frames of equal dimensions satisfying the
generation-tagging, dirty-span, and continuation invariants (`FrameInv`,
including the measurement-service coherence of stored clusters), with back's
full-clear flag unset and forceRedraw false, and with the row-signature hash
collision-free on this pair (the spec's standing assumption about its 64-bit
hash, stated as: equal row-range signatures imply field-wise equal row
contents), running `blitDiff` against a simulated terminal whose cells
initially show the front frame leaves the terminal cell-equal to the back
frame at every in-bounds coordinate, and every emitted write is addressed
inside the union of the two frames' dirty spans for its row. -/
theorem C1_diff_correctness (seg : String → String × String × Int)
    (front back : frame) (spaces : String) (t0 : Terminal)
    (hw : front.width = back.width) (hh : front.height = back.height)
    (hF : FrameInv seg front) (hB : FrameInv seg back)
    (hca : back.clearAll = false)
    (hsp : spaces.data = List.replicate spaces.length ' ')
    (hspl : back.width ≤ (spaces.length : Int))
    (hsegsp : ∀ r : String, seg (" " ++ r) = (" ", r, 1))
    (hsig : ∀ y : Int, 0 ≤ y → y < back.height → ∀ s e : Int,
      unionSpan front back y = some (s, e) →
      rowRangeSignature (fun i => front.cells (y * back.width + i))
          front.gen s e =
        rowRangeSignature (fun i => back.cells (y * back.width + i))
          back.gen s e →
      RowsContentEq (fun i => front.cells (y * back.width + i))
        (fun i => back.cells (y * back.width + i)) front.gen back.gen s e)
    (ht0 : ∀ x y : Int, 0 ≤ x → x < back.width → 0 ≤ y → y < back.height →
      t0 x y = renderCell front x y) :
    (∀ x y : Int, 0 ≤ x → x < back.width → 0 ≤ y → y < back.height →
      applyOps seg t0 (blitDiff front back false spaces).ops x y =
        renderCell back x y) ∧
    (∀ op ∈ (blitDiff front back false spaces).ops, ∃ tx ty s e : Int,
      opTarget op = some (tx, ty) ∧ unionSpan front back ty = some (s, e) ∧
      s ≤ tx ∧ tx < e) := by
  constructor
  · intro x y h1 h2 h3 h4
    rw [blitDiff_incremental front back spaces hca]
    exact (foldr_rows_correct seg front back spaces hw hh hF hB hsp hspl
      hsegsp hsig (rowsOf back.height)
      (fun y' hy' => (mem_rowsOf _ _).mp hy') (rowsOf_nodup _) t0
      (fun x' hx1 hx2 y' hy' => ht0 x' y' hx1 hx2
        ((mem_rowsOf _ _).mp hy').1 ((mem_rowsOf _ _).mp hy').2)).1
      x h1 h2 y ((mem_rowsOf _ _).mpr ⟨h3, h4⟩)
  · exact blitDiff_target_range front back spaces hca

/-- Witness for C1: two freshly begun empty 2×1 frames over the per-character
segmentation service satisfy the invariants, and the diff leaves the
front-matching terminal showing the back frame with every write inside the
union spans. -/
theorem C1_diff_correctness_witness :
    FrameInv asciiSeg fC8 ∧ fC8.clearAll = false ∧
    (∀ x y : Int, 0 ≤ x → x < fC8.width → 0 ≤ y → y < fC8.height →
      applyOps asciiSeg (fun a b => renderCell fC8 a b)
        (blitDiff fC8 fC8 false "  ").ops x y = renderCell fC8 x y) ∧
    (∀ op ∈ (blitDiff fC8 fC8 false "  ").ops, ∃ tx ty s e : Int,
      opTarget op = some (tx, ty) ∧ unionSpan fC8 fC8 ty = some (s, e) ∧
      s ≤ tx ∧ tx < e) := by
  have hinv : FrameInv asciiSeg fC8 :=
    { width_nonneg := by decide
      height_nonneg := by decide
      span_wf := by decide
      present_in_span := fun x y _ _ _ _ hp =>
        absurd (hp : (0 : Nat) = 1) ((by decide : ¬((0 : Nat) = 1)))
      row_inv := fun y _ _ =>
        { lead_fields := fun x _ _ hp _ =>
            absurd (hp : (0 : Nat) = 1) ((by decide : ¬((0 : Nat) = 1)))
          cont_ok := fun x _ _ hp _ =>
            absurd (hp : (0 : Nat) = 1) ((by decide : ¬((0 : Nat) = 1)))
          closure := fun x _ _ hp _ _ =>
            absurd (hp : (0 : Nat) = 1) ((by decide : ¬((0 : Nat) = 1))) } }
  have hmain := C1_diff_correctness asciiSeg fC8 fC8 "  "
    (fun a b => renderCell fC8 a b) rfl rfl hinv hinv (by decide)
    (by decide) (by decide)
    (fun r => by cases r with | mk l => rfl)
    (fun y _ _ s e _ _ t ht1 ht2 =>
      ⟨Iff.rfl, fun _ => ⟨rfl, rfl, rfl, rfl, rfl⟩⟩)
    (fun x y _ _ _ _ => rfl)
  exact ⟨hinv, by decide, hmain.1, hmain.2⟩

end Tview
